import Mathlib

/-!
A verification development for the pattern compiler of the `colly`
live-coding language.  The Rust sources are embedded shallowly: machine
integers (`u64`) become `Nat` (no operation relevant to the claims wraps),
`f64` durations and positions become `ℚ`, fallible interpreters return
`Except`, and interior-mutable state (`Rc<RefCell<_>>`) is threaded
explicitly.  Each definition mirrors the function of the same name in the
sources (`src/clock.rs`, `src/types/pattern.rs`, `src/interpreter.rs`);
the few places where the sources reference items that are not present in
the tree (an old AST revision and the tuple-to-position conversion) are
modelled from the specification and marked as such.
-/

namespace Colly

/-! ## Clock (src/clock.rs) -/

/-- `CursorPosition` from src/clock.rs: a `(beat, tick)` pair carrying its
resolution (ticks per beat).  Rust derives `PartialEq`/`Eq` structurally
(including the resolution field); `Ord` compares `(beat, tick)` only. -/
structure CursorPosition where
  beat : Nat
  tick : Nat
  resolution : Nat
deriving DecidableEq, Repr

/-- Rust `CursorPosition::default()`: zero position at the default
clock resolution 1920 (src/settings.rs). -/
instance : Inhabited CursorPosition := ⟨⟨0, 0, 1920⟩⟩

/-- `CursorPosition::new(resolution)`. -/
def CursorPosition.new (resolution : Nat) : CursorPosition :=
  ⟨0, 0, resolution⟩

/-- `CursorPosition::increment`: advance one tick, rolling over into the
next beat when the tick reaches the resolution. -/
def CursorPosition.increment (p : CursorPosition) : CursorPosition :=
  if p.resolution ≤ p.tick + 1 then
    { p with beat := p.beat + 1, tick := 0 }
  else
    { p with tick := p.tick + 1 }

/-- `CursorPosition::from_ticks(ticks, resolution)`. -/
def CursorPosition.from_ticks (ticks resolution : Nat) : CursorPosition :=
  ⟨ticks / resolution, ticks % resolution, resolution⟩

/-- Rust `f64::trunc` (round toward zero), on `ℚ`. -/
def ratTrunc (x : ℚ) : ℤ :=
  if 0 ≤ x then ⌊x⌋ else -⌊-x⌋

/-- Rust `f64::fract`: `x - x.trunc()`. -/
def ratFract (x : ℚ) : ℚ :=
  x - ratTrunc x

/-- Rust `f64::round`: round half away from zero. -/
def roundHalfAwayFromZero (x : ℚ) : ℤ :=
  if 0 ≤ x then ⌊x + 1/2⌋ else -⌊-x + 1/2⌋

/-- `CursorPosition::from_f64(position, resolution)`:
`beat = position as u64` (truncation) and
`tick = (position.fract() * resolution).round() as u64`.
The `f64` arithmetic is modelled on `ℚ`; on the inputs the claims are
settled at, every intermediate `f64` value is exactly representable, so
the rational model agrees with the floating-point computation. -/
def CursorPosition.from_f64 (position : ℚ) (resolution : Nat) :
    CursorPosition :=
  ⟨(ratTrunc position).toNat,
   (roundHalfAwayFromZero (ratFract position * resolution)).toNat,
   resolution⟩

/-- `CursorPosition::as_ticks`. -/
def CursorPosition.as_ticks (p : CursorPosition) : Nat :=
  p.beat * p.resolution + p.tick

/-- The strict part of `Ord for CursorPosition`: lexicographic on
`(beat, tick)`. -/
def CursorPosition.posLt (a b : CursorPosition) : Prop :=
  a.beat < b.beat ∨ (a.beat = b.beat ∧ a.tick < b.tick)

instance (a b : CursorPosition) : Decidable (a.posLt b) := by
  unfold CursorPosition.posLt; infer_instance

/-- The non-strict part of `Ord for CursorPosition`. -/
def CursorPosition.posLe (a b : CursorPosition) : Prop :=
  a.beat < b.beat ∨ (a.beat = b.beat ∧ a.tick ≤ b.tick)

instance (a b : CursorPosition) : Decidable (a.posLe b) := by
  unfold CursorPosition.posLe; infer_instance

/-- `Cursor` from src/clock.rs: a position plus the clock resolution. -/
structure Cursor where
  position : CursorPosition
  resolution : Nat
deriving DecidableEq, Repr

/-- `Cursor::new(resolution)`. -/
def Cursor.new (resolution : Nat) : Cursor :=
  ⟨CursorPosition.new resolution, resolution⟩

/-- `Iterator for Cursor`: `next` increments the position (it always
returns `Some`, so the embedding returns the new cursor directly). -/
def Cursor.step (c : Cursor) : Cursor :=
  { c with position := c.position.increment }

/-! ## Events and event streams (src/types/pattern.rs) -/

/-- `EventState`: every scheduled value is either a note-on or a
note-off. -/
inductive EventState where
  | on : EventState
  | off : EventState
deriving DecidableEq, Repr

/-- Rust `Default for EventState` is `On`. -/
instance : Inhabited EventState := ⟨EventState.on⟩

/-- `Event<V>`: a value scheduled at a position. -/
structure Event (T : Type) where
  value : T
  position : CursorPosition
  state : EventState
deriving DecidableEq, Repr

instance {T : Type} [Inhabited T] : Inhabited (Event T) :=
  ⟨⟨default, default, default⟩⟩

/-- Stable insertion of an event into a position-sorted list: the event
goes in front of the first element whose position is not smaller.  This
models Rust's stable `sort_by(|a, b| a.position.cmp(&b.position))`. -/
def insertByPos {T : Type} (e : Event T) : List (Event T) → List (Event T)
  | [] => [e]
  | x :: xs =>
    if x.position.posLt e.position then x :: insertByPos e xs
    else e :: x :: xs

/-- Stable sort by position (insertion sort), modelling
`EventStream::sort`'s stable `Vec::sort_by` on positions. -/
def sortByPos {T : Type} : List (Event T) → List (Event T)
  | [] => []
  | x :: xs => insertByPos x (sortByPos xs)

/-- `EventStream<T>` from src/types/pattern.rs. -/
structure EventStream (T : Type) where
  events : List (Event T)
  increment : Nat
  cursor : Cursor
  is_loop : Bool
  fill_gaps : Bool
  gap_value : List (Event T)
  is_sorted : Bool
deriving DecidableEq, Repr

/-- `EventStream::sort`: sort lazily, only when not already sorted. -/
def EventStream.sortNow {T : Type} (s : EventStream T) : EventStream T :=
  if s.is_sorted then s
  else { s with events := sortByPos s.events, is_sorted := true }

/-- `EventStream::new(events, resolution)`: the constructor sorts the
given events eagerly. -/
def EventStream.new {T : Type} [Inhabited T] (events : List (Event T))
    (resolution : Nat) : EventStream T :=
  { events := sortByPos events
    increment := 0
    cursor := Cursor.new resolution
    is_loop := false
    fill_gaps := false
    gap_value := [default]
    is_sorted := true }

/-- `EventStream::add_event`: push and mark unsorted. -/
def EventStream.add_event {T : Type} (s : EventStream T) (e : Event T) :
    EventStream T :=
  { s with events := s.events ++ [e], is_sorted := false }

/-- `EventStream::reset`: index to `0` and cursor to the origin.
Modelled from the spec: the source writes `(0, 0).into()` but the
`From<(u64, u64)>` conversion is not in the tree; per §4.4 of the spec,
`reset()` "sets index and cursor to origin", kept at the cursor's own
resolution. -/
def EventStream.reset {T : Type} (s : EventStream T) : EventStream T :=
  { s with
    increment := 0
    cursor := { s.cursor with
      position := ⟨0, 0, s.cursor.position.resolution⟩ } }

/-- `EventStream::check_loop`: a looping stream that has consumed every
event restarts from the origin. -/
def EventStream.check_loop {T : Type} (s : EventStream T) : EventStream T :=
  if s.is_loop ∧ s.events.length ≤ s.increment then s.reset else s

/-- The scan inside `EventStream::next` over `events[increment..]`:
events at the cursor position are collected (advancing the increment),
events at earlier positions are skipped, and the scan stops at the first
later position.  Returns the collected group and the new increment. -/
def collectAt {T : Type} : List (Event T) → CursorPosition → Nat →
    List (Event T) × Nat
  | [], _, inc => ([], inc)
  | e :: rest, pos, inc =>
    if e.position = pos then
      let (r, inc') := collectAt rest pos (inc + 1)
      (e :: r, inc')
    else if pos.posLt e.position then ([], inc)
    else collectAt rest pos inc

/-- `EventStream::handle_gaps`: remember the last non-empty group; when
gap filling is on and the step produced nothing, replay the remembered
group at the current position.  Returns the (possibly filled) group and
the new `gap_value`. -/
def handleGaps {T : Type} (fill_gaps : Bool) (gap_value : List (Event T))
    (pos : CursorPosition) (res : List (Event T)) :
    List (Event T) × List (Event T) :=
  let gap' := if res.isEmpty then gap_value else res
  if fill_gaps ∧ res.isEmpty then
    (gap_value.map fun e => { e with position := pos }, gap')
  else (res, gap')

/-- `Iterator for EventStream`: `next` sorts lazily, returns `None` when
empty or exhausted without looping, otherwise collects the group at the
cursor position, applies gap handling, advances the cursor one tick and
restarts if a looping stream is exhausted. -/
def EventStream.next {T : Type} (s : EventStream T) :
    Option (List (Event T)) × EventStream T :=
  let s := s.sortNow
  if s.events.isEmpty ∨ (s.events.length ≤ s.increment ∧ ¬ s.is_loop) then
    (none, s)
  else
    let (res, inc') := collectAt (s.events.drop s.increment)
      s.cursor.position s.increment
    let (res, gap') := handleGaps s.fill_gaps s.gap_value
      s.cursor.position res
    let s' := { s with
      increment := inc'
      gap_value := gap'
      cursor := s.cursor.step }
    (some res, s'.check_loop)

/-! ## Musical value model (src/types/pattern.rs) -/

/-- `Degree`: a scale index plus a chromatic alteration. -/
structure Degree where
  value : Nat
  alteration : Int
deriving DecidableEq, Repr

/-- `Default for Degree`. -/
instance : Inhabited Degree := ⟨⟨0, 0⟩⟩

/-- `From<u64> for Degree`. -/
def Degree.fromPitch (value : Nat) : Degree :=
  ⟨value, 0⟩

/-- `Root(pub u64)`. -/
structure Root where
  val : Nat
deriving DecidableEq, Repr

instance : Inhabited Root := ⟨⟨0⟩⟩

/-- `Octave`: a pitch offset and an octave number kept in sync. -/
structure Octave where
  pitch : Nat
  octave : Nat
deriving DecidableEq, Repr

/-- `Octave::with_octave`. -/
def Octave.with_octave (octave : Nat) : Octave :=
  ⟨octave * 12, octave⟩

/-- `Octave::set_as_octave`. -/
def Octave.set_as_octave (_o : Octave) (value : Nat) : Octave :=
  ⟨12 * value, value⟩

/-- `Octave::up` (the octave number saturates in `u64`; on `Nat` the
addition is exact). -/
def Octave.up (o : Octave) : Octave :=
  o.set_as_octave (o.octave + 1)

/-- `Octave::down` (`saturating_sub`, which is exactly `Nat`
subtraction). -/
def Octave.down (o : Octave) : Octave :=
  o.set_as_octave (o.octave - 1)

/-- `Default for Octave`: octave 5, pitch 60. -/
instance : Inhabited Octave := ⟨Octave.with_octave 5⟩

/-- `Modulation` (name and `f64` payload, the latter as `ℚ`). -/
structure Modulation where
  name : String
  value : ℚ
deriving DecidableEq, Repr

instance : Inhabited Modulation := ⟨⟨"", 0⟩⟩

/-- `Scale`: a name and a pitch set. -/
structure Scale where
  name : String
  pitch_set : List Nat
deriving DecidableEq, Repr

/-- `Default for Scale`: the chromatic scale `0..11`
(`DEFAULT_PITCH_SET`). -/
def Scale.defaultScale : Scale :=
  ⟨"Chromatic", [0, 1, 2, 3, 4, 5, 6, 7, 8, 9, 10, 11]⟩

instance : Inhabited Scale := ⟨Scale.defaultScale⟩

/-- `Value`: a pitch or a named modulation. -/
inductive Value where
  | pitch : Nat → Value
  | modulation : String → ℚ → Value
deriving DecidableEq, Repr

/-- `Degree::as_pitch_at_scale`.  Rust indexes
`pitch_set[value % len]` and divides by `len`; with an empty pitch set
both operations panic, which the embedding models as `none`. -/
def Degree.as_pitch_at_scale (d : Degree) (scale : Scale) : Option Int :=
  if scale.pitch_set.isEmpty then none
  else
    let octave_offset := d.value / scale.pitch_set.length * 12
    some
      ((((scale.pitch_set.getD (d.value % scale.pitch_set.length) 0)
          + octave_offset : Nat) : Int) + d.alteration)

/-- `Value::new_pitch`: resolve a degree against root, octave and scale,
flooring the result at zero.  `none` models the panic on an empty pitch
set, inherited from `as_pitch_at_scale`. -/
def Value.new_pitch (degree : Degree) (root : Root) (octave : Octave)
    (scale : Scale) : Option Value :=
  (degree.as_pitch_at_scale scale).map fun pitch_offset =>
    Value.pitch (max (((octave.pitch + root.val : Nat) : Int) + pitch_offset) 0).toNat

/-! ## Pattern (src/types/pattern.rs) -/

/-- `Pattern`: five event streams, a cursor, a start position and the
loop/finished flags. -/
structure Pattern where
  degree : EventStream Degree
  scale : EventStream Scale
  root : EventStream Root
  octave : EventStream Octave
  modulation : EventStream Modulation
  cursor : Cursor
  start_position : CursorPosition
  is_loop : Bool
  is_finished : Bool
deriving DecidableEq, Repr

/-- `Pattern::new(cursor)`: remember the cursor's position as the start
position, reset the pattern's own cursor to the origin and create the
five streams; `scale`, `root` and `octave` loop and fill gaps.
The origin `(0, 0).into()` is modelled from the spec (the tuple
conversion is not in the tree), keeping the position's resolution. -/
def Pattern.new (cursor : Cursor) : Pattern :=
  let start_position := cursor.position
  let cursor : Cursor :=
    { cursor with position := ⟨0, 0, cursor.position.resolution⟩ }
  { degree := EventStream.new [] cursor.resolution
    scale := { EventStream.new ([] : List (Event Scale)) cursor.resolution
      with is_loop := true, fill_gaps := true }
    root := { EventStream.new ([] : List (Event Root)) cursor.resolution
      with is_loop := true, fill_gaps := true }
    octave := { EventStream.new ([] : List (Event Octave)) cursor.resolution
      with is_loop := true, fill_gaps := true }
    modulation := EventStream.new [] cursor.resolution
    start_position := start_position
    cursor := cursor
    is_loop := false
    is_finished := false }

/-- `Pattern::set_loop`: propagate the flag to the degree and modulation
streams. -/
def Pattern.set_loop (p : Pattern) (is_loop : Bool) : Pattern :=
  { p with
    is_loop := is_loop
    degree := { p.degree with is_loop := is_loop }
    modulation := { p.modulation with is_loop := is_loop } }

/-- `Pattern::start_position`. -/
def Pattern.startPosition (p : Pattern) : CursorPosition :=
  p.start_position

/-- `Pattern::sort`: sort all five streams. -/
def Pattern.sortStreams (p : Pattern) : Pattern :=
  { p with
    degree := p.degree.sortNow
    scale := p.scale.sortNow
    root := p.root.sortNow
    octave := p.octave.sortNow
    modulation := p.modulation.sortNow }

/-- `Pattern::next_degree_and_modulation` (src/types/pattern.rs, lines
120–149): pull one group from `degree` and one from `modulation`; when
both pulls are `None`, finish the pattern (emitting empty groups until
the current beat completes); when exactly one is `None` and the cursor
sits at tick 0, reset that stream and pull again — with no check of the
pattern's loop flag. -/
def Pattern.next_degree_and_modulation (p : Pattern) :
    Option (List (Event Degree) × List (Event Modulation)) × Pattern :=
  let (degree, ds) := p.degree.next
  let (modulation, ms) := p.modulation.next
  let p := { p with degree := ds, modulation := ms }
  if degree.isNone ∧ modulation.isNone then
    if ¬ p.is_finished ∧ p.cursor.position.tick ≠ 0 then
      (some ([], []), p)
    else
      (none, { p with is_finished := true })
  else
    let (degree, p) :=
      if p.cursor.position.tick = 0 ∧ degree.isNone then
        let (d, ds) := p.degree.reset.next
        (d, { p with degree := ds })
      else (degree, p)
    let (modulation, p) :=
      if p.cursor.position.tick = 0 ∧ modulation.isNone then
        let (m, ms) := p.modulation.reset.next
        (m, { p with modulation := ms })
      else (modulation, p)
    (some (degree.getD [], modulation.getD []), p)

/-! ## Interpreter intermediate form (src/interpreter.rs) -/

/-- `Audible`: what an intermediate event will sound as. -/
inductive Audible where
  | degree : Degree → Audible
  | modulation : Modulation → Audible
  | pause : Audible
  | tie : Audible
deriving DecidableEq, Repr

/-- `IntermediateEvent`: one atom's contribution with beat-relative
timing (durations are `f64` in the source, `ℚ` here). -/
structure IntermediateEvent where
  value : Audible
  octave : Option Octave
  duration : ℚ
  beat_position : ℚ
  beat : Nat
deriving DecidableEq, Repr

/-- A placeholder used only by `List.getD` for indices at which the Rust
code would panic; every theorem below carries hypotheses under which it
is never read. -/
def IntermediateEvent.dummy : IntermediateEvent :=
  ⟨Audible.pause, none, 0, 0, 0⟩

instance : Inhabited IntermediateEvent := ⟨IntermediateEvent.dummy⟩

/-- Whether an intermediate event is an `Audible::Tie`. -/
def IntermediateEvent.isTie (e : IntermediateEvent) : Bool :=
  match e.value with
  | Audible.tie => true
  | _ => false

/-- `ArrangedIntermediates`: the events of one duration-slot (several
for a chord, one otherwise). -/
structure ArrangedIntermediates where
  values : List IntermediateEvent
  duration : ℚ
  beat : Nat
  beat_position : ℚ
deriving DecidableEq, Repr

instance : Inhabited ArrangedIntermediates := ⟨⟨[], 0, 0, 0⟩⟩

/-- `From<IntermediateEvent> for ArrangedIntermediates`. -/
def ArrangedIntermediates.ofEvent (e : IntermediateEvent) :
    ArrangedIntermediates :=
  ⟨[e], e.duration, e.beat, e.beat_position⟩

/-- `InterpreterError` (src/interpreter.rs).  `unimplementedPanic`
models the `unimplemented!()` panics of the source on the AST arms that
are not implemented. -/
inductive InterpreterError where
  | rule : String → String → InterpreterError
  | lonelyTie : Nat → InterpreterError
  | unimplementedPanic : InterpreterError
deriving DecidableEq, Repr

/-! ## Tie interpreter (src/interpreter.rs, lines 215–321) -/

/-- `result[i].duration += d`, the in-place prolongation performed by
`TieInterpreter::interpret_current`. -/
def addDur : List IntermediateEvent → Nat → ℚ → List IntermediateEvent
  | [], _, _ => []
  | e :: l, 0, d => { e with duration := e.duration + d } :: l
  | e :: l, n + 1, d => e :: addDur l n d

/-- The loop body of `TieInterpreter::interpret_current`: walk the old
`previous_indices` with counter `n`; a `Tie` at `values[n % len]`
prolongs the recorded result event and keeps its pointer, a non-tie is
pushed only when `n` is in range for `values` (a wrapped non-tie is
dropped).  Arguments: the current values, the counter, the remaining old
pointers, the result so far and the new pointers so far. -/
def interpretCurrentAux (values : List IntermediateEvent) :
    Nat → List Nat → List IntermediateEvent → List Nat →
    List IntermediateEvent × List Nat
  | _, [], res, np => (res, np)
  | n, p :: rest, res, np =>
    let current := values.getD (n % values.length) IntermediateEvent.dummy
    if current.isTie then
      interpretCurrentAux values (n + 1) rest
        (addDur res p current.duration) (np ++ [p])
    else if n < values.length then
      interpretCurrentAux values (n + 1) rest (res ++ [current])
        (np ++ [res.length])
    else
      interpretCurrentAux values (n + 1) rest res np

/-- `TieInterpreter::interpret_next`: overflow voices beyond the carried
pointers; a tie here has nothing to prolong and errors, everything else
is pushed (`push_result`). -/
def interpretNext (beat : Nat) :
    List IntermediateEvent → List Nat → List IntermediateEvent →
    Except InterpreterError (List IntermediateEvent × List Nat)
  | res, np, [] => Except.ok (res, np)
  | res, np, e :: rest =>
    if e.isTie then Except.error (InterpreterError.lonelyTie beat)
    else interpretNext beat (res ++ [e]) (np ++ [res.length]) rest

/-- One iteration of the loop in
`Interpreter<Vec<IntermediateEvent>> for TieInterpreter`: split the
group's values at `mid = min(|previous_indices|, |values|)`, align the
first part against the carried pointers and treat the rest as overflow
voices. -/
def tieStep (st : List IntermediateEvent × List Nat)
    (g : ArrangedIntermediates) :
    Except InterpreterError (List IntermediateEvent × List Nat) :=
  let mid := min st.2.length g.values.length
  let values := g.values.take mid
  let next := g.values.drop mid
  let (res, np) := interpretCurrentAux values 0 st.2 st.1 []
  interpretNext g.beat res np next

/-- `TieInterpreter::interpret` with `prepare_buffers` and
`check_lonely`: an empty input yields no events; a tie anywhere in the
first group is a `LonelyTie` at that group's beat; otherwise the first
group seeds the result and its index list, and the remaining groups are
folded through `tieStep`. -/
def tieInterpret (gs : List ArrangedIntermediates) :
    Except InterpreterError (List IntermediateEvent) :=
  match gs with
  | [] => Except.ok []
  | g0 :: rest =>
    if g0.values.any IntermediateEvent.isTie then
      Except.error (InterpreterError.lonelyTie g0.beat)
    else
      (rest.foldlM tieStep (g0.values, List.range g0.values.length)).map
        (·.1)

/-! ## Pattern AST

Modelled from the spec: `src/interpreter.rs` consumes an AST revision
(`ast::PatternAtomValue`, `ast::Note`, `ast::PatternAtom` with
`value`/`methods` fields, `ast::Event` with exactly the three variants
matched below) that is not in the tree — `src/ast.rs` holds an older
revision.  The shapes below follow §3 of the spec
(`PatternAtom = { value: AtomValue, methods: [EventMethod] }`,
`Event = Group | Chord | Parenthesised`, `BeatEvent = [Event]`,
`Pattern = [BeatEvent]`), which matches every use site in
`src/interpreter.rs`. -/

/-- `ast::Octave`: an octave shift atom. -/
inductive AstOctave where
  | up : AstOctave
  | down : AstOctave
deriving DecidableEq, Repr

/-- `ast::Alteration`: a chromatic alteration on a note. -/
inductive Alteration where
  | up : Alteration
  | down : Alteration
deriving DecidableEq, Repr

/-- `ast::EventMethod`: the duration modifiers. -/
inductive EventMethod where
  | multiply : EventMethod
  | divide : EventMethod
  | dot : EventMethod
deriving DecidableEq, Repr

/-- `ast::Note`: a pitch and its alterations. -/
structure Note where
  pitch : Nat
  alteration : List Alteration
deriving DecidableEq, Repr

/-- `ast::Modulation`. -/
inductive AstModulation where
  | up : AstModulation
  | down : AstModulation
  | crescendo : AstModulation
  | diminuendo : AstModulation
  | literal : ℚ → AstModulation
deriving DecidableEq, Repr

/-- `ast::PatternAtomValue`. -/
inductive PatternAtomValue where
  | octave : AstOctave → PatternAtomValue
  | tie : PatternAtomValue
  | note : Note → PatternAtomValue
  | pause : PatternAtomValue
  | patternInlet : PatternAtomValue
  | modulation : AstModulation → PatternAtomValue
deriving DecidableEq, Repr

/-- `ast::PatternAtom`: an atom value with its trailing methods. -/
structure PatternAtom where
  value : PatternAtomValue
  methods : List EventMethod
deriving DecidableEq, Repr

mutual

/-- `ast::Event`: a group of atoms, a chord, or a parenthesised
subdivision. -/
inductive AstEvent where
  | group : List PatternAtom → AstEvent
  | chord : List AstBeatEvent → List EventMethod → AstEvent
  | parenthesised : List AstBeatEvent → List EventMethod → AstEvent

/-- `ast::BeatEvent`: the events of one beat. -/
inductive AstBeatEvent where
  | mk : List AstEvent → AstBeatEvent

end

/-- The events of a beat. -/
def AstBeatEvent.events : AstBeatEvent → List AstEvent
  | .mk es => es

/-- `ast::Pattern`: a list of beats. -/
structure AstPattern where
  beats : List AstBeatEvent

/-! ## Atom and event interpreters (src/interpreter.rs, lines 383–606) -/

/-- `AtomInterpreter::interpret_methods`: fold the duration modifiers
left to right over the source duration. -/
def interpretMethods (source : ℚ) (methods : List EventMethod) : ℚ :=
  methods.foldl
    (fun duration m =>
      match m with
      | EventMethod.multiply => duration * 2
      | EventMethod.divide => duration / 2
      | EventMethod.dot => duration * (3 / 2))
    source

/-- `AtomInterpreter::interpret_alteration`: sum the ups and downs. -/
def interpretAlteration (alterations : List Alteration) : Int :=
  alterations.foldl
    (fun acc a =>
      match a with
      | Alteration.up => acc + 1
      | Alteration.down => acc - 1)
    0

/-- The mutable state of an `AtomInterpreter`: the contents of the
shared octave register, the pending octave change, and the contents of
the shared beat-position accumulator. -/
structure AtomState where
  octave : Octave
  octave_change : Option Octave
  position : ℚ
deriving DecidableEq, Repr

/-- `AtomInterpreter::interpret_octave_change`: snapshot the register
into the pending change if not yet pending, then shift both. -/
def interpretOctaveChange (st : AtomState) (o : AstOctave) : AtomState :=
  let oc := st.octave_change.getD st.octave
  match o with
  | AstOctave.up =>
    { st with octave := st.octave.up, octave_change := some oc.up }
  | AstOctave.down =>
    { st with octave := st.octave.down, octave_change := some oc.down }

/-- `AtomInterpreter::next_intermediate`: build the intermediate event
at the current accumulator value, consuming the pending octave change
and advancing the accumulator by the atom's duration. -/
def nextIntermediate (beat : Nat) (st : AtomState) (value : Audible)
    (methods : List EventMethod) : ArrangedIntermediates × AtomState :=
  let duration := interpretMethods 1 methods
  let intermediate : IntermediateEvent :=
    { value := value
      octave := st.octave_change
      duration := duration
      beat_position := st.position
      beat := beat }
  (ArrangedIntermediates.ofEvent intermediate,
   { st with position := st.position + duration, octave_change := none })

/-- `AtomInterpreter::interpret`: octave atoms only mutate state, notes,
ties and pauses emit one intermediate each; pattern inlets and
modulations hit `unimplemented!()` in the source. -/
def interpretAtom (beat : Nat) (st : AtomState) (atom : PatternAtom) :
    Except InterpreterError (Option ArrangedIntermediates × AtomState) :=
  match atom.value with
  | PatternAtomValue.octave o =>
    Except.ok (none, interpretOctaveChange st o)
  | PatternAtomValue.tie =>
    let (a, st) := nextIntermediate beat st Audible.tie atom.methods
    Except.ok (some a, st)
  | PatternAtomValue.note n =>
    let degree : Degree := ⟨n.pitch, interpretAlteration n.alteration⟩
    let (a, st) :=
      nextIntermediate beat st (Audible.degree degree) atom.methods
    Except.ok (some a, st)
  | PatternAtomValue.pause =>
    let (a, st) := nextIntermediate beat st Audible.pause atom.methods
    Except.ok (some a, st)
  | PatternAtomValue.patternInlet => Except.error InterpreterError.unimplementedPanic
  | PatternAtomValue.modulation _ => Except.error InterpreterError.unimplementedPanic

/-- `EventInterpreter::interpret_group`'s loop over the atoms. -/
def interpretAtoms (beat : Nat) :
    AtomState → List PatternAtom →
    Except InterpreterError (List ArrangedIntermediates × AtomState)
  | st, [] => Except.ok ([], st)
  | st, atom :: rest => do
    let (a, st) ← interpretAtom beat st atom
    let (out, st) ← interpretAtoms beat st rest
    Except.ok ((a.toList) ++ out, st)

/-- The `scan` inside `EventInterpreter::interpret_parenthesised`: each
inner event is scaled by the group's method modifier, repositioned at
the running accumulator and moved to the current beat, becoming its own
single-valued `ArrangedIntermediates`. -/
def parenScan (modifier : ℚ) (beat : Nat) :
    ℚ → List IntermediateEvent → List ArrangedIntermediates × ℚ
  | pos, [] => ([], pos)
  | pos, e :: rest =>
    let e' := { e with
      duration := e.duration * modifier
      beat_position := pos
      beat := beat }
    let (out, pos') := parenScan modifier beat (pos + e'.duration) rest
    (ArrangedIntermediates.ofEvent e' :: out, pos')

/-- `BeatEventInterpreter::normalize`: divide every duration and beat
position (of the arranged slots and of their contained events) by the
group's total duration, multiplied by `divisor_multiplier` when it is
positive. -/
def normalize (divisor_multiplier : Nat)
    (group : List ArrangedIntermediates) : List ArrangedIntermediates :=
  let divisor0 : ℚ :=
    group.foldl (fun acc event => acc + event.duration) 0
  let divisor :=
    if 0 < divisor_multiplier then divisor0 * (divisor_multiplier : ℚ)
    else divisor0
  let step1 : List ArrangedIntermediates :=
    group.map fun arranged =>
      { arranged with values := arranged.values.map fun e =>
          { e with
            duration := e.duration / divisor
            beat_position := e.beat_position / divisor } }
  step1.map fun arranged =>
    { arranged with
      duration := arranged.duration / divisor
      beat_position := arranged.beat_position / divisor }

mutual

/-- `EventInterpreter::interpret`: dispatch on the event shape.  The
octave register is shared across sibling events, the beat-position
accumulator across the whole beat; both are threaded explicitly. -/
def interpretEvent (beat : Nat) (oct : Octave) (pos : ℚ) :
    AstEvent →
    Except InterpreterError (List ArrangedIntermediates × Octave × ℚ)
  | AstEvent.group atoms => do
    let (out, st) ← interpretAtoms beat ⟨oct, none, pos⟩ atoms
    Except.ok (out, st.octave, st.position)
  | AstEvent.chord inner methods => do
    let intermediates ← interpretInner 1 inner
    let modifier := interpretMethods 1 methods
    let values := intermediates.map fun e =>
      { e with
        duration := e.duration * modifier
        beat := beat
        beat_position := e.beat_position + pos }
    let duration := 1 * modifier
    Except.ok ([⟨values, duration, beat, pos⟩], oct, pos + duration)
  | AstEvent.parenthesised inner methods => do
    let intermediates ← interpretInner inner.length inner
    let modifier := interpretMethods 1 methods
    let (out, pos') := parenScan modifier beat pos intermediates
    Except.ok (out, oct, pos')
termination_by e => (sizeOf e, 0)

/-- The loop of `BeatEventInterpreter::interpret` over the beat's
events. -/
def interpretEvents (beat : Nat) (oct : Octave) (pos : ℚ) :
    List AstEvent →
    Except InterpreterError (List ArrangedIntermediates × Octave × ℚ)
  | [] => Except.ok ([], oct, pos)
  | e :: rest => do
    let (out, oct, pos) ← interpretEvent beat oct pos e
    let (out', oct, pos) ← interpretEvents beat oct pos rest
    Except.ok (out ++ out', oct, pos)
termination_by es => (sizeOf es, 1)

/-- `BeatEventInterpreter::interpret`: run the beat's events over a
fresh position accumulator, then normalise the beat. -/
def interpretBeat (divisor_multiplier : Nat) (beat : Nat) (oct : Octave) :
    AstBeatEvent →
    Except InterpreterError (List ArrangedIntermediates × Octave)
  | AstBeatEvent.mk events => do
    let (out, oct, _) ← interpretEvents beat oct 0 events
    Except.ok (normalize divisor_multiplier out, oct)
termination_by be => (sizeOf be, 1)

/-- The loop of `PatternInnerInterpreter::interpret` over the beats,
keeping the shared octave register across beats. -/
def interpretBeats (divisor_multiplier : Nat) (beat : Nat) (oct : Octave) :
    List AstBeatEvent →
    Except InterpreterError (List ArrangedIntermediates × Octave)
  | [] => Except.ok ([], oct)
  | b :: rest => do
    let (out, oct) ← interpretBeat divisor_multiplier beat oct b
    let (out', oct) ← interpretBeats divisor_multiplier (beat + 1) oct rest
    Except.ok (out ++ out', oct)
termination_by bs => (sizeOf bs, 1)

/-- `EventInterpreter::interpret_inner`: a nested
`PatternInnerInterpreter` with tie handling disabled and a fresh default
octave register; the arranged slots are flattened back to plain
intermediates. -/
def interpretInner (divisor_multiplier : Nat)
    (inner : List AstBeatEvent) :
    Except InterpreterError (List IntermediateEvent) := do
  let (arranged, _) ← interpretBeats divisor_multiplier 0 default inner
  Except.ok (arranged.map (·.values)).flatten
termination_by (sizeOf inner, 2)

end

/-- `PatternInnerInterpreter::interpret` at the top level
(`divisor_multiplier = 0`, tie handling enabled): lower every beat, then
resolve ties. -/
def patternInnerInterpret (beats : List AstBeatEvent) :
    Except InterpreterError (List IntermediateEvent) := do
  let (arranged, _) ← interpretBeats 0 0 default beats
  tieInterpret arranged

/-- `Interpreter<types::Pattern> for ast::Pattern` (src/interpreter.rs,
lines 139–154): lower the pattern to intermediates, build a fresh
`Pattern` on the clock cursor and sort its streams.  The source contains
`// TODO: schedule events` in place of any scheduling, so the computed
intermediates are dropped and every stream of the result is empty. -/
def interpretAstPattern (p : AstPattern) (cursor : Cursor) :
    Except InterpreterError Pattern := do
  let _ ← patternInnerInterpret p.beats
  Except.ok (Pattern.sortStreams (Pattern.new cursor))

/-! ## Helper lemmas -/

/-- The total duration of a group of arranged slots. -/
def sumDur (group : List ArrangedIntermediates) : ℚ :=
  (group.map (·.duration)).sum

theorem foldl_add_duration (group : List ArrangedIntermediates) (c : ℚ) :
    group.foldl (fun acc event => acc + event.duration) c =
      c + sumDur group := by
  induction group generalizing c with
  | nil => simp [sumDur]
  | cons g rest ih => simp [sumDur, ih, List.map_cons]; ring

theorem sum_map_div (l : List ℚ) (d : ℚ) :
    (l.map (· / d)).sum = l.sum / d := by
  induction l with
  | nil => simp
  | cons x xs ih => simp [ih]; ring

/-! ## Claims -/

/-- **C3**: for every degree, root, octave and scale with a non-empty
pitch set, `Value::new_pitch` returns
`Pitch(max(0, octave.pitch + root + pitch_set[degree.value mod |set|]
+ 12 * (degree.value div |set|) + degree.alteration))`; a computed
negative pitch is clamped to `0` rather than producing an error. -/
theorem new_pitch_formula_c3 (d : Degree) (r : Root) (o : Octave)
    (s : Scale) (h : s.pitch_set ≠ []) :
    Value.new_pitch d r o s =
      some (Value.pitch (Int.toNat (max 0
        ((o.pitch : ℤ) + (r.val : ℤ)
          + (s.pitch_set.getD (d.value % s.pitch_set.length) 0 : ℤ)
          + 12 * ((d.value / s.pitch_set.length : ℕ) : ℤ)
          + d.alteration)))) := by
  rw [Value.new_pitch, Degree.as_pitch_at_scale,
    if_neg (by simpa [List.isEmpty_iff] using h), Option.map_some']
  congr 3
  rw [max_comm]
  push_cast
  ring_nf

/-- Witness for C3 at the default scale, root, octave and degree
(`init_pitch_value` in the source's tests expects `Pitch(60)`). -/
theorem new_pitch_formula_c3_witness :
    Scale.defaultScale.pitch_set ≠ [] ∧
      Value.new_pitch ⟨0, 0⟩ ⟨0⟩ (Octave.with_octave 5)
        Scale.defaultScale = some (Value.pitch 60) := by
  have h := new_pitch_formula_c3 ⟨0, 0⟩ ⟨0⟩ (Octave.with_octave 5)
    Scale.defaultScale (by decide)
  exact ⟨by decide, by rw [h]; decide⟩

/-- **C10**: `Degree::as_pitch_at_scale` is defined exactly when the
scale's pitch set is non-empty (an empty pitch set makes the
remainder-by-zero/indexing panic, modelled as `none`); when non-empty
the index `degree.value mod |pitch_set|` is in bounds; and the default
scale is the 12-element chromatic set, so no default construction ever
yields an empty pitch set. -/
theorem as_pitch_at_scale_total_c10 :
    (∀ (d : Degree) (s : Scale),
      (d.as_pitch_at_scale s).isSome ↔ s.pitch_set ≠ []) ∧
    (∀ (d : Degree) (s : Scale), s.pitch_set ≠ [] →
      d.value % s.pitch_set.length < s.pitch_set.length) ∧
    Scale.defaultScale.pitch_set = [0, 1, 2, 3, 4, 5, 6, 7, 8, 9, 10, 11] ∧
    Scale.defaultScale.pitch_set.length = 12 := by
  refine ⟨fun d s => ?_,
    fun d s h => Nat.mod_lt _ (List.length_pos_of_ne_nil h), rfl, rfl⟩
  rw [Degree.as_pitch_at_scale]
  by_cases hs : s.pitch_set.isEmpty
  · rw [if_pos hs]
    rw [List.isEmpty_iff] at hs
    simp [hs]
  · rw [if_neg hs]
    have hne : s.pitch_set ≠ [] := by
      intro he
      exact hs (by simp [he])
    simp [hne]

/-- **C9**: `Pattern::new(cursor)` records the cursor's position as the
pattern's start position (returned unchanged by `start_position()`) and
resets the pattern's own iteration cursor to `(0, 0)` (keeping the
resolution), so events are iterated relative to the pattern itself,
independent of the clock cursor's position at construction time. -/
theorem pattern_new_start_c9 (c : Cursor) :
    (Pattern.new c).startPosition = c.position ∧
      (Pattern.new c).cursor.position.beat = 0 ∧
      (Pattern.new c).cursor.position.tick = 0 ∧
      (Pattern.new c).cursor.resolution = c.resolution := by
  refine ⟨rfl, rfl, rfl, rfl⟩

/-- **C8, counterexample**: the claim says every position built by
`from_f64` (`from_real`) is normalised (`tick < R`); at `x = 3/4`,
`R = 2` the source computes `tick = round(0.75 * 2) = 2 = R` (each
`f64` step is exact), so the position is not normalised. -/
theorem from_f64_not_normalised_c8_cex :
    (CursorPosition.from_f64 (3 / 4 : ℚ) 2).tick = 2 ∧
      ¬ (CursorPosition.from_f64 (3 / 4 : ℚ) 2).tick < 2 := by
  have h1 : ratTrunc (3 / 4 : ℚ) = 0 := by
    rw [ratTrunc, if_pos (by norm_num)]
    norm_num
  have h2 : ratFract (3 / 4 : ℚ) * 2 = 3 / 2 := by
    rw [ratFract, h1]
    norm_num
  have h3 : roundHalfAwayFromZero (3 / 2 : ℚ) = 2 := by
    rw [roundHalfAwayFromZero, if_pos (by norm_num)]
    norm_num
  have ht : (CursorPosition.from_f64 (3 / 4 : ℚ) 2).tick = 2 := by
    show (roundHalfAwayFromZero (ratFract (3 / 4 : ℚ) * 2)).toNat = 2
    rw [h2, h3]
    rfl
  exact ⟨ht, by rw [ht]; omega⟩

/-- **C8, amended**: positions built by `from_ticks(n, R)` with `R ≥ 1`
are normalised (`tick < R`); positions built by `from_f64(x, R)` with
`x ≥ 0`, `R ≥ 1` satisfy only `tick ≤ R` — the rounding of
`fract(x) * R` can reach `R` itself, in which case the position is not
normalised. -/
theorem positions_normalised_c8 :
    (∀ (n R : Nat), 1 ≤ R → (CursorPosition.from_ticks n R).tick < R) ∧
    (∀ (x : ℚ) (R : Nat), 0 ≤ x → 1 ≤ R →
      (CursorPosition.from_f64 x R).tick ≤ R) := by
  constructor
  · intro n R hR
    exact Nat.mod_lt _ (by omega)
  · intro x R hx hR
    have htr : ratTrunc x = ⌊x⌋ := by rw [ratTrunc, if_pos hx]
    have hfr : ratFract x = Int.fract x := by
      rw [ratFract, htr, Int.self_sub_floor]
    have h0 : (0 : ℚ) ≤ Int.fract x * R :=
      mul_nonneg (Int.fract_nonneg x) (by positivity)
    have hRpos : (0 : ℚ) < R := by exact_mod_cast Nat.lt_of_lt_of_le Nat.zero_lt_one hR
    have hlt : Int.fract x * R < R := by
      calc Int.fract x * R < 1 * R := by
            exact mul_lt_mul_of_pos_right (Int.fract_lt_one x) hRpos
        _ = R := one_mul _
    show (roundHalfAwayFromZero (ratFract x * R)).toNat ≤ R
    rw [hfr, roundHalfAwayFromZero, if_pos h0]
    rw [Int.toNat_le]
    have hfl : (⌊Int.fract x * (R : ℚ) + 1 / 2⌋ : ℚ) ≤
        Int.fract x * (R : ℚ) + 1 / 2 := Int.floor_le _
    have : (⌊Int.fract x * (R : ℚ) + 1 / 2⌋ : ℚ) < (R : ℚ) + 1 := by
      calc (⌊Int.fract x * (R : ℚ) + 1 / 2⌋ : ℚ)
          ≤ Int.fract x * (R : ℚ) + 1 / 2 := hfl
        _ < (R : ℚ) + 1 / 2 := by linarith
        _ ≤ (R : ℚ) + 1 := by linarith
    have hz : ⌊Int.fract x * (R : ℚ) + 1 / 2⌋ < (R : ℤ) + 1 := by
      exact_mod_cast this
    omega

/-- Witness for C8's amended theorem: both parts at concrete inputs
(`from_ticks(7, 3)` has tick `1 < 3`; `from_f64(3/4, 2)` has tick
`2 ≤ 2`). -/
theorem positions_normalised_c8_witness :
    (CursorPosition.from_ticks 7 3).tick < 3 ∧
      (CursorPosition.from_f64 (3 / 4 : ℚ) 2).tick ≤ 2 := by
  exact ⟨positions_normalised_c8.1 7 3 (by decide),
    positions_normalised_c8.2 (3 / 4) 2 (by norm_num) (by decide)⟩

/-- **C6**: for every beat of a source pattern, the per-beat
normalisation (`BeatEventInterpreter::normalize` with the top-level
`divisor_multiplier = 0`) divides every duration and beat position by
the beat's total duration `D`, so — whenever `D ≠ 0`, which holds for
every non-empty beat since every atom's duration is positive — the
durations of the beat's arranged intermediates sum to exactly `1` in
rational arithmetic, placing the whole beat content in the beat-local
window `[0, 1)` regardless of how many atoms the beat contained. -/
theorem normalize_sums_to_one_c6 (group : List ArrangedIntermediates)
    (h : sumDur group ≠ 0) :
    sumDur (normalize 0 group) = 1 := by
  unfold sumDur normalize
  simp only [List.map_map]
  rw [foldl_add_duration, zero_add]
  show (group.map fun a => a.duration / sumDur group).sum = 1
  have hsplit : (group.map fun a => a.duration / sumDur group) =
      (group.map (·.duration)).map (· / sumDur group) := by
    simp [List.map_map]
  rw [hsplit, sum_map_div]
  show sumDur group / sumDur group = 1
  exact div_self h

/-- Witness for C6: the beat of `| 0:1. 2* |`'s first beat shape — two
atoms of durations `1/4` and `3/4` after normalisation. -/
theorem normalize_sums_to_one_c6_witness :
    sumDur [ArrangedIntermediates.ofEvent
        ⟨Audible.degree ⟨0, 0⟩, none, 1 / 2, 0, 0⟩,
      ArrangedIntermediates.ofEvent
        ⟨Audible.degree ⟨1, 0⟩, none, 3 / 2, 1 / 2, 0⟩] ≠ 0 ∧
    sumDur (normalize 0 [ArrangedIntermediates.ofEvent
        ⟨Audible.degree ⟨0, 0⟩, none, 1 / 2, 0, 0⟩,
      ArrangedIntermediates.ofEvent
        ⟨Audible.degree ⟨1, 0⟩, none, 3 / 2, 1 / 2, 0⟩]) = 1 := by
  have hne : sumDur [ArrangedIntermediates.ofEvent
        (⟨Audible.degree ⟨0, 0⟩, none, 1 / 2, 0, 0⟩ : IntermediateEvent),
      ArrangedIntermediates.ofEvent
        ⟨Audible.degree ⟨1, 0⟩, none, 3 / 2, 1 / 2, 0⟩] ≠ 0 := by
    norm_num [sumDur, ArrangedIntermediates.ofEvent]
  exact ⟨hne, normalize_sums_to_one_c6 _ hne⟩

/-- **C1**: the claim says every surviving intermediate is scheduled
onto the stream chosen by its `Audible` tag, and that a pattern
containing a note yields a non-empty degree stream.  The source's
`Interpreter<types::Pattern> for ast::Pattern` instead carries
`// TODO: schedule events` and `IntermediateEvent::schedule` is
unreachable dead code with `unimplemented!()` arms: every successful
interpretation returns a pattern whose five streams are all empty, and
in particular the single-note pattern `| 0 |` yields an empty degree
stream. -/
theorem interpret_schedules_nothing_c1 :
    (∀ (p : AstPattern) (c : Cursor) (pat : Pattern),
      interpretAstPattern p c = Except.ok pat →
        pat.degree.events = [] ∧ pat.modulation.events = [] ∧
        pat.scale.events = [] ∧ pat.root.events = [] ∧
        pat.octave.events = []) ∧
    interpretAstPattern
        ⟨[AstBeatEvent.mk [AstEvent.group [⟨PatternAtomValue.note ⟨0, []⟩, []⟩]]]⟩
        (Cursor.new 4) =
      Except.ok (Pattern.sortStreams (Pattern.new (Cursor.new 4))) := by
  constructor
  · intro p c pat h
    rw [interpretAstPattern] at h
    cases hi : patternInnerInterpret p.beats with
    | error e =>
      rw [hi] at h
      exact absurd h (by simp [Bind.bind, Except.bind])
    | ok v =>
      rw [hi] at h
      simp only [Bind.bind, Except.bind, Except.ok.injEq] at h
      subst h
      exact ⟨rfl, rfl, rfl, rfl, rfl⟩
  · rw [interpretAstPattern]
    have hinner : patternInnerInterpret
        [AstBeatEvent.mk [AstEvent.group
          [⟨PatternAtomValue.note ⟨0, []⟩, []⟩]]] =
        Except.ok [⟨Audible.degree ⟨0, 0⟩, none, 1, 0, 0⟩] := by
      norm_num [patternInnerInterpret, interpretBeats, interpretBeat,
        interpretEvents, interpretEvent, interpretAtoms, interpretAtom,
        nextIntermediate, interpretMethods, interpretAlteration, normalize,
        foldl_add_duration, sumDur, ArrangedIntermediates.ofEvent,
        tieInterpret, Bind.bind, Except.bind, Except.map, pure,
        Except.pure, IntermediateEvent.isTie, List.foldlM, List.foldl]
    rw [hinner]
    rfl


/-- A concrete non-looping pattern mid-iteration (resolution 1, cursor
at beat 1): its degree stream held one event at `(0, 0)` and is
exhausted, while its modulation stream still holds an event at
`(1, 0)`. -/
def c5Pattern : Pattern :=
  { degree :=
      { events := [⟨⟨0, 0⟩, ⟨0, 0, 1⟩, EventState.on⟩]
        increment := 1
        cursor := ⟨⟨1, 0, 1⟩, 1⟩
        is_loop := false
        fill_gaps := false
        gap_value := [default]
        is_sorted := true }
    scale := { EventStream.new ([] : List (Event Scale)) 1
      with is_loop := true, fill_gaps := true }
    root := { EventStream.new ([] : List (Event Root)) 1
      with is_loop := true, fill_gaps := true }
    octave := { EventStream.new ([] : List (Event Octave)) 1
      with is_loop := true, fill_gaps := true }
    modulation :=
      { events := [⟨⟨"v", 1⟩, ⟨0, 0, 1⟩, EventState.on⟩,
          ⟨⟨"v", 2⟩, ⟨1, 0, 1⟩, EventState.on⟩]
        increment := 1
        cursor := ⟨⟨1, 0, 1⟩, 1⟩
        is_loop := false
        fill_gaps := false
        gap_value := [default]
        is_sorted := true }
    cursor := ⟨⟨1, 0, 1⟩, 1⟩
    start_position := ⟨0, 0, 1⟩
    is_loop := false
    is_finished := false }

/-- **C5, counterexample**: the claim says that for a non-looping
pattern the exhausted stream is not reset, so its events are not
replayed.  `c5Pattern` is non-looping, its degree stream is exhausted
(`next` returns `None`), yet `next_degree_and_modulation` resets it and
replays its `(0, 0)` degree event alongside the modulation event of
beat 1 — exactly the polyrhythmic replay the source's own
`pattern_next_polyrithmic` test asserts. -/
theorem nonlooping_pattern_replays_c5_cex :
    c5Pattern.is_loop = false ∧
    (c5Pattern.degree.next).1 = none ∧
    (c5Pattern.next_degree_and_modulation).1 =
      some ([⟨⟨0, 0⟩, ⟨0, 0, 1⟩, EventState.on⟩],
        [⟨⟨"v", 2⟩, ⟨1, 0, 1⟩, EventState.on⟩]) := by
  refine ⟨rfl, rfl, rfl⟩

/-- The mirror image of `c5Pattern`: a non-looping pattern at beat 1
whose modulation stream is exhausted while its degree stream still
holds an event at `(1, 0)`. -/
def c5PatternM : Pattern :=
  { degree :=
      { events := [⟨⟨0, 0⟩, ⟨0, 0, 1⟩, EventState.on⟩,
          ⟨⟨1, 0⟩, ⟨1, 0, 1⟩, EventState.on⟩]
        increment := 1
        cursor := ⟨⟨1, 0, 1⟩, 1⟩
        is_loop := false
        fill_gaps := false
        gap_value := [default]
        is_sorted := true }
    scale := { EventStream.new ([] : List (Event Scale)) 1
      with is_loop := true, fill_gaps := true }
    root := { EventStream.new ([] : List (Event Root)) 1
      with is_loop := true, fill_gaps := true }
    octave := { EventStream.new ([] : List (Event Octave)) 1
      with is_loop := true, fill_gaps := true }
    modulation :=
      { events := [⟨⟨"v", 1⟩, ⟨0, 0, 1⟩, EventState.on⟩]
        increment := 1
        cursor := ⟨⟨1, 0, 1⟩, 1⟩
        is_loop := false
        fill_gaps := false
        gap_value := [default]
        is_sorted := true }
    cursor := ⟨⟨1, 0, 1⟩, 1⟩
    start_position := ⟨0, 0, 1⟩
    is_loop := false
    is_finished := false }

/-- **C5, amended**: in `Pattern::next`, when the pull from the degree
(or modulation) stream yields nothing while the other stream still
yields and the cursor is at tick 0 of a beat, the exhausted stream is
reset and re-pulled *unconditionally* — the code checks no loop flag,
so this holds whether or not the pattern is looping, and a non-looping
pattern's exhausted stream is replayed.  (A looping pattern's stream
never reports exhaustion in the first place, since `EventStream::next`
restarts internally via `check_loop`.)  The two conjuncts cover the
two symmetric branches of the source: pattern `p` has its degree
stream exhausted while modulation yields, pattern `q` the reverse. -/
theorem next_dm_resets_regardless_c5 (p q : Pattern)
    (md : List (Event Modulation)) (dd : List (Event Degree))
    (hpt : p.cursor.position.tick = 0)
    (hpd : (p.degree.next).1 = none)
    (hpm : (p.modulation.next).1 = some md)
    (hqt : q.cursor.position.tick = 0)
    (hqd : (q.degree.next).1 = some dd)
    (hqm : (q.modulation.next).1 = none) :
    (p.next_degree_and_modulation).1 =
      some ((((p.degree.next).2.reset.next).1.getD []), md) ∧
    (q.next_degree_and_modulation).1 =
      some (dd, (((q.modulation.next).2.reset.next).1.getD [])) := by
  constructor
  · have h1 : p.degree.next = (none, (p.degree.next).2) := Prod.ext hpd rfl
    have h2 : p.modulation.next = (some md, (p.modulation.next).2) :=
      Prod.ext hpm rfl
    rw [Pattern.next_degree_and_modulation, h1, h2]
    simp [hpt]
  · have h1 : q.degree.next = (some dd, (q.degree.next).2) :=
      Prod.ext hqd rfl
    have h2 : q.modulation.next = (none, (q.modulation.next).2) :=
      Prod.ext hqm rfl
    rw [Pattern.next_degree_and_modulation, h1, h2]
    simp [hqt]

/-- Witness for C5's amended theorem at `c5Pattern` (degree exhausted)
and `c5PatternM` (modulation exhausted). -/
theorem next_dm_resets_regardless_c5_witness :
    (c5Pattern.next_degree_and_modulation).1 =
      some ((((c5Pattern.degree.next).2.reset.next).1.getD []),
        [⟨⟨"v", 2⟩, ⟨1, 0, 1⟩, EventState.on⟩]) ∧
    (c5PatternM.next_degree_and_modulation).1 =
      some ([⟨⟨1, 0⟩, ⟨1, 0, 1⟩, EventState.on⟩],
        (((c5PatternM.modulation.next).2.reset.next).1.getD [])) :=
  next_dm_resets_regardless_c5 c5Pattern c5PatternM _ _
    rfl rfl rfl rfl rfl rfl


/-! ## C4: when the tie interpreter reports a lonely tie -/

/-- How many voice pointers `interpretCurrentAux` carries forward when
walking `L` old pointers against `values` starting at counter `n`: a
tie keeps its pointer, an in-range non-tie records the pushed event's
index, a wrapped non-tie is dropped. -/
def keptLen (values : List IntermediateEvent) : Nat → Nat → Nat
  | _, 0 => 0
  | n, L + 1 =>
    (if (values.getD (n % values.length) IntermediateEvent.dummy).isTie
        ∨ n < values.length then 1 else 0) +
      keptLen values (n + 1) L

/-- The carried-pointer recursion of the tie interpreter, stripped to
the part that decides the `LonelyTie` error: given `L` carried voice
pointers, a group errs (at its beat) exactly when one of its overflow
voices — position `min L |values|` onward — is a tie; otherwise the
carried count becomes the kept pointers plus one per overflow voice. -/
def lonelyGo : Nat → List ArrangedIntermediates → Option Nat
  | _, [] => none
  | L, g :: rest =>
    let mid := min L g.values.length
    if (g.values.drop mid).any IntermediateEvent.isTie then some g.beat
    else lonelyGo (keptLen (g.values.take mid) 0 L + (g.values.length - mid))
      rest

/-- The beat at which pattern lowering reports `LonelyTie`, if any: a
tie anywhere in the first group, or an overflow tie in a later group
per `lonelyGo`. -/
def lonelySpec : List ArrangedIntermediates → Option Nat
  | [] => none
  | g0 :: rest =>
    if g0.values.any IntermediateEvent.isTie then some g0.beat
    else lonelyGo g0.values.length rest

theorem interpretCurrentAux_snd_length (values : List IntermediateEvent) :
    ∀ (oldPrev : List Nat) (n : Nat) (res : List IntermediateEvent)
      (np : List Nat),
      (interpretCurrentAux values n oldPrev res np).2.length =
        np.length + keptLen values n oldPrev.length := by
  intro oldPrev
  induction oldPrev with
  | nil => intro n res np; simp [interpretCurrentAux, keptLen]
  | cons p rest ih =>
    intro n res np
    rw [interpretCurrentAux]
    by_cases htie :
        (values.getD (n % values.length) IntermediateEvent.dummy).isTie
    · rw [if_pos htie, ih]
      simp only [keptLen, List.length_cons]
      rw [if_pos (Or.inl htie)]
      simp only [List.length_append, List.length_cons, List.length_nil]
      omega
    · rw [if_neg htie]
      by_cases hn : n < values.length
      · rw [if_pos hn, ih]
        simp only [keptLen, List.length_cons]
        rw [if_pos (Or.inr hn)]
        simp only [List.length_append, List.length_cons, List.length_nil]
        omega
      · rw [if_neg hn, ih]
        simp only [keptLen, List.length_cons]
        rw [if_neg (fun hc => hc.elim (fun hh => htie hh) (fun hh => hn hh))]
        omega

theorem interpretNext_error_of_any (beat : Nat) :
    ∀ (next : List IntermediateEvent) (res : List IntermediateEvent)
      (np : List Nat), next.any IntermediateEvent.isTie = true →
      interpretNext beat res np next =
        Except.error (InterpreterError.lonelyTie beat) := by
  intro next
  induction next with
  | nil => intro res np h; simp at h
  | cons e rest ih =>
    intro res np h
    rw [interpretNext]
    by_cases he : e.isTie
    · rw [if_pos he]
    · rw [if_neg he]
      apply ih
      rw [List.any_cons, Bool.or_eq_true] at h
      rcases h with h | h
      · exact absurd h he
      · exact h

theorem interpretNext_ok_of_none (beat : Nat) :
    ∀ (next : List IntermediateEvent) (res : List IntermediateEvent)
      (np : List Nat), next.any IntermediateEvent.isTie = false →
      ∃ res' np', interpretNext beat res np next = Except.ok (res', np') ∧
        np'.length = np.length + next.length := by
  intro next
  induction next with
  | nil => intro res np _; exact ⟨res, np, rfl, by simp⟩
  | cons e rest ih =>
    intro res np h
    rw [List.any_cons, Bool.or_eq_false_iff] at h
    rw [interpretNext, if_neg (by simp [h.1])]
    obtain ⟨res', np', heq, hlen⟩ := ih (res ++ [e]) (np ++ [res.length]) h.2
    refine ⟨res', np', heq, ?_⟩
    rw [hlen]
    simp only [List.length_append, List.length_cons, List.length_nil]
    omega

theorem foldlM_tieStep_error_iff :
    ∀ (rest : List ArrangedIntermediates)
      (st : List IntermediateEvent × List Nat) (b : Nat),
      (rest.foldlM tieStep st =
        Except.error (InterpreterError.lonelyTie b)) ↔
      lonelyGo st.2.length rest = some b := by
  intro rest
  induction rest with
  | nil =>
    intro st b
    simp [List.foldlM, lonelyGo, pure, Except.pure]
  | cons g rest ih =>
    intro st b
    rw [List.foldlM_cons]
    rw [tieStep]
    rcases hc : interpretCurrentAux
        (g.values.take (min st.2.length g.values.length)) 0 st.2 st.1 []
      with ⟨res, np⟩
    dsimp only
    by_cases hany :
        (g.values.drop (min st.2.length g.values.length)).any
          IntermediateEvent.isTie
    · rw [interpretNext_error_of_any g.beat _ res np hany]
      rw [lonelyGo]
      rw [if_pos hany]
      simp [Bind.bind, Except.bind, eq_comm]
    · rw [Bool.not_eq_true] at hany
      obtain ⟨res', np', heq, hlen⟩ :=
        interpretNext_ok_of_none g.beat
          (g.values.drop (min st.2.length g.values.length)) res np hany
      rw [heq]
      have hnp : np.length =
          keptLen (g.values.take (min st.2.length g.values.length)) 0
            st.2.length := by
        have := interpretCurrentAux_snd_length
          (g.values.take (min st.2.length g.values.length)) st.2 0 st.1 []
        rw [hc] at this
        simpa using this
      have hstep : np'.length =
          keptLen (g.values.take (min st.2.length g.values.length)) 0
              st.2.length +
            (g.values.length - min st.2.length g.values.length) := by
        rw [hlen, hnp, List.length_drop]
      rw [show (Except.ok (res', np') >>= fun st' =>
          List.foldlM tieStep st' rest) =
          List.foldlM tieStep (res', np') rest from rfl]
      rw [ih (res', np') b]
      rw [lonelyGo]
      rw [if_neg (by rw [hany]; exact Bool.false_ne_true)]
      rw [hstep]

theorem except_map_eq_error {α β ε : Type} (f : α → β) (x : Except ε α)
    (e : ε) : Except.map f x = Except.error e ↔ x = Except.error e := by
  cases x <;> simp [Except.map]

/-- The lowered groups of a pattern shaped like
`| [ 0 2 ] [ _ ] [ 5 _ ] |`: two voices, then a single wrapped tie
(prolonging both), then a non-tie plus a tie at position 1. -/
def c4CexGroups : List ArrangedIntermediates :=
  [⟨[⟨Audible.degree ⟨0, 0⟩, none, 1, 0, 0⟩,
     ⟨Audible.degree ⟨2, 0⟩, none, 1, 0, 0⟩], 1, 0, 0⟩,
   ⟨[⟨Audible.tie, none, 1, 0, 1⟩], 1, 1, 0⟩,
   ⟨[⟨Audible.degree ⟨5, 0⟩, none, 1, 0, 2⟩,
     ⟨Audible.tie, none, 1, 0, 2⟩], 1, 2, 0⟩]

/-- **C4, counterexample**: the claim's "if and only if" fails
right-to-left.  In `c4CexGroups` the third group has a tie at voice
position 1, which is at/beyond the previous group's voice count (1), so
the claim predicts `LonelyTie`; the source instead succeeds — the
wrapped tie of the second group kept both carried pointers alive, so
position 1 still has a previous event to prolong. -/
theorem tie_overflow_claim_c4_cex :
    ((c4CexGroups.getD 2 default).values.getD 1
        IntermediateEvent.dummy).isTie = true ∧
    (c4CexGroups.getD 1 default).values.length = 1 ∧
    tieInterpret c4CexGroups = Except.ok
      [⟨Audible.degree ⟨0, 0⟩, none, 2, 0, 0⟩,
       ⟨Audible.degree ⟨2, 0⟩, none, 3, 0, 0⟩,
       ⟨Audible.degree ⟨5, 0⟩, none, 1, 0, 2⟩] := by
  refine ⟨rfl, rfl, ?_⟩
  norm_num [tieInterpret, tieStep, interpretCurrentAux, interpretNext,
    addDur, IntermediateEvent.isTie, IntermediateEvent.dummy,
    List.foldlM, Bind.bind, Except.bind, Except.map, pure, Except.pure,
    c4CexGroups]

/-- **C4, amended**: pattern lowering returns `LonelyTie(b)` iff either
the very first arranged group contains a tie at any voice (`b` is that
group's beat field), or some later arranged group contains a tie at an
overflow position at or beyond the number of *carried-forward voice
pointers* at that group — a count that starts as the first group's
voice count and equals the previous group's voice count only when no
modulo-wrapping retained or dropped pointers; the reported beat is the
beat field of the offending group.  The hypothesis excludes groups with
empty value lists, on which the source panics (index/modulo by zero). -/
theorem tie_interpret_lonely_iff_c4 (gs : List ArrangedIntermediates)
    (b : Nat) (hne : ∀ g ∈ gs, g.values ≠ []) :
    tieInterpret gs = Except.error (InterpreterError.lonelyTie b) ↔
      lonelySpec gs = some b := by
  cases gs with
  | nil => simp [tieInterpret, lonelySpec]
  | cons g0 rest =>
    rw [tieInterpret, lonelySpec]
    by_cases h0 : g0.values.any IntermediateEvent.isTie
    · rw [if_pos h0, if_pos h0]
      simp [eq_comm]
    · rw [if_neg h0, if_neg h0]
      rw [except_map_eq_error]
      have := foldlM_tieStep_error_iff rest
        (g0.values, List.range g0.values.length) b
      rw [this]
      rw [show (g0.values, List.range g0.values.length).2.length =
        g0.values.length from by simp]

/-- The lowered groups of `| 0 [ _ _ ] |`: a single voice followed by a
chord with a genuine overflow tie, which must error at beat 1. -/
def c4WitGroups : List ArrangedIntermediates :=
  [⟨[⟨Audible.degree ⟨0, 0⟩, none, 1, 0, 0⟩], 1, 0, 0⟩,
   ⟨[⟨Audible.tie, none, 1, 0, 1⟩, ⟨Audible.tie, none, 1, 0, 1⟩], 1, 1, 0⟩]

/-- Witness for C4's amended theorem at `c4WitGroups`. -/
theorem tie_interpret_lonely_iff_c4_witness :
    tieInterpret c4WitGroups =
        Except.error (InterpreterError.lonelyTie 1) ↔
      lonelySpec c4WitGroups = some 1 :=
  tie_interpret_lonely_iff_c4 c4WitGroups 1
    (by
      intro g hg
      simp only [c4WitGroups, List.mem_cons, List.not_mem_nil,
        or_false] at hg
      rcases hg with rfl | rfl <;> simp)


/-! ## C7: event stream ordering and stability -/
theorem posLt_ne {a b : CursorPosition} (h : a.posLt b) : a ≠ b := by
  intro he
  subst he
  rcases h with h | ⟨_, h⟩ <;> omega

theorem posLe_of_posLt {a b : CursorPosition} (h : a.posLt b) :
    a.posLe b := by
  rcases h with h | ⟨h1, h2⟩
  · exact Or.inl h
  · exact Or.inr ⟨h1, Nat.le_of_lt h2⟩

theorem posLe_of_not_posLt {a b : CursorPosition} (h : ¬ a.posLt b) :
    b.posLe a := by
  rw [CursorPosition.posLt, not_or] at h
  rcases Nat.lt_trichotomy b.beat a.beat with hb | hb | hb
  · exact Or.inl hb
  · refine Or.inr ⟨hb, ?_⟩
    by_contra ht
    exact h.2 ⟨hb.symm, by omega⟩
  · exact absurd hb h.1

theorem posLe_trans {a b c : CursorPosition} (h1 : a.posLe b)
    (h2 : b.posLe c) : a.posLe c := by
  rcases h1 with h1 | ⟨h1, h1t⟩ <;> rcases h2 with h2 | ⟨h2, h2t⟩
  · exact Or.inl (Nat.lt_trans h1 h2)
  · exact Or.inl (h2 ▸ h1)
  · exact Or.inl (h1 ▸ h2)
  · exact Or.inr ⟨h1.trans h2, Nat.le_trans h1t h2t⟩

theorem posLt_of_posLt_posLe {a b c : CursorPosition} (h1 : a.posLt b)
    (h2 : b.posLe c) : a.posLt c := by
  rcases h1 with h1 | ⟨h1, h1t⟩ <;> rcases h2 with h2 | ⟨h2, h2t⟩
  · exact Or.inl (Nat.lt_trans h1 h2)
  · exact Or.inl (h2 ▸ h1)
  · exact Or.inl (h1 ▸ h2)
  · exact Or.inr ⟨h1.trans h2, by omega⟩

theorem increment_posLt (p : CursorPosition) :
    p.posLt p.increment := by
  rw [CursorPosition.increment]
  split
  · exact Or.inl (by simp)
  · exact Or.inr ⟨rfl, by simp⟩

theorem mem_insertByPos {T : Type} (e y : Event T) :
    ∀ l, y ∈ insertByPos e l ↔ y = e ∨ y ∈ l := by
  intro l
  induction l with
  | nil => simp [insertByPos]
  | cons x xs ih =>
    rw [insertByPos]
    split
    · simp only [List.mem_cons, ih]
      tauto
    · simp only [List.mem_cons]

theorem pairwise_insertByPos {T : Type} (e : Event T) :
    ∀ l, l.Pairwise (fun a b => a.position.posLe b.position) →
      (insertByPos e l).Pairwise
        (fun a b => a.position.posLe b.position) := by
  intro l
  induction l with
  | nil => intro _; simp [insertByPos]
  | cons x xs ih =>
    intro hp
    rw [List.pairwise_cons] at hp
    rw [insertByPos]
    split
    · rw [List.pairwise_cons]
      refine ⟨fun y hy => ?_, ih hp.2⟩
      rw [mem_insertByPos] at hy
      rcases hy with rfl | hy
      · exact posLe_of_posLt (by assumption)
      · exact hp.1 y hy
    · rw [List.pairwise_cons]
      refine ⟨fun y hy => ?_, by rw [List.pairwise_cons]; exact hp⟩
      rcases List.mem_cons.mp hy with rfl | hy
      · exact posLe_of_not_posLt (by assumption)
      · exact posLe_trans (posLe_of_not_posLt (by assumption)) (hp.1 y hy)

theorem sortByPos_pairwise {T : Type} :
    ∀ (l : List (Event T)),
      (sortByPos l).Pairwise (fun a b => a.position.posLe b.position) := by
  intro l
  induction l with
  | nil => simp [sortByPos]
  | cons x xs ih => exact pairwise_insertByPos x _ ih

theorem filter_insertByPos {T : Type} (e : Event T) (p : CursorPosition) :
    ∀ l, (insertByPos e l).filter (fun x => decide (x.position = p)) =
      if e.position = p then
        e :: l.filter (fun x => decide (x.position = p))
      else l.filter (fun x => decide (x.position = p)) := by
  intro l
  induction l with
  | nil =>
    rw [insertByPos]
    by_cases he : e.position = p
    · rw [if_pos he]
      simp [List.filter, he]
    · rw [if_neg he]
      simp [List.filter, he]
  | cons x xs ih =>
    rw [insertByPos]
    split
    · rename_i hlt
      by_cases he : e.position = p
      · have hx : ¬ x.position = p := by
          subst he
          exact posLt_ne hlt
        rw [if_pos he]
        rw [List.filter_cons, List.filter_cons]
        rw [if_neg (by simpa using hx), if_neg (by simpa using hx)]
        rw [ih, if_pos he]
      · rw [if_neg he]
        rw [List.filter_cons, List.filter_cons]
        by_cases hx : x.position = p
        · rw [if_pos (by simpa using hx), if_pos (by simpa using hx)]
          rw [ih, if_neg he]
        · rw [if_neg (by simpa using hx), if_neg (by simpa using hx)]
          rw [ih, if_neg he]
    · rw [List.filter_cons]
      by_cases he : e.position = p
      · rw [if_pos he, if_pos (by simpa using he)]
      · rw [if_neg he, if_neg (by simpa using he)]

theorem sortByPos_filter_stable {T : Type} (p : CursorPosition) :
    ∀ (l : List (Event T)),
      (sortByPos l).filter (fun x => decide (x.position = p)) =
        l.filter (fun x => decide (x.position = p)) := by
  intro l
  induction l with
  | nil => rfl
  | cons x xs ih =>
    rw [sortByPos, filter_insertByPos, List.filter_cons]
    by_cases hx : x.position = p
    · rw [if_pos hx, if_pos (by simpa using hx), ih]
    · rw [if_neg hx, if_neg (by simpa using hx), ih]

theorem collectAt_mem_position {T : Type} (pos : CursorPosition) :
    ∀ (l : List (Event T)) (inc : Nat) (e : Event T),
      e ∈ (collectAt l pos inc).1 → e.position = pos := by
  intro l
  induction l with
  | nil => intro inc e he; simp [collectAt] at he
  | cons x rest ih =>
    intro inc e he
    rw [collectAt] at he
    by_cases hx : x.position = pos
    · rw [if_pos hx] at he
      rcases hc : collectAt rest pos (inc + 1) with ⟨r, inc'⟩
      rw [hc] at he
      dsimp only at he
      rcases List.mem_cons.mp he with rfl | he
      · exact hx
      · exact ih (inc + 1) e (by rw [hc]; exact he)
    · rw [if_neg hx] at he
      split at he
      · simp at he
      · exact ih inc e he

theorem collectAt_fst_sorted {T : Type} (pos : CursorPosition) :
    ∀ (l : List (Event T)) (inc : Nat),
      l.Pairwise (fun a b => a.position.posLe b.position) →
      (collectAt l pos inc).1 =
        l.filter (fun x => decide (x.position = pos)) := by
  intro l
  induction l with
  | nil => intro inc _; rfl
  | cons x rest ih =>
    intro inc hp
    rw [List.pairwise_cons] at hp
    rw [collectAt]
    by_cases hx : x.position = pos
    · rw [if_pos hx, List.filter_cons_of_pos (by simpa using hx)]
      rcases hc : collectAt rest pos (inc + 1) with ⟨r, inc'⟩
      dsimp only
      rw [show r = (collectAt rest pos (inc + 1)).1 from by rw [hc]]
      rw [ih (inc + 1) hp.2]
    · rw [if_neg hx, List.filter_cons_of_neg (by simpa using hx)]
      by_cases hlt : pos.posLt x.position
      · rw [if_pos hlt]
        have hnil : rest.filter (fun x => decide (x.position = pos)) = [] := by
          rw [List.filter_eq_nil_iff]
          intro a ha
          have hle : x.position.posLe a.position := hp.1 a ha
          have : pos.posLt a.position := posLt_of_posLt_posLe hlt hle
          simpa using (posLt_ne this).symm
        rw [hnil]
      · rw [if_neg hlt]
        exact ih inc hp.2

theorem handleGaps_mem_position {T : Type} (fill : Bool)
    (gap res : List (Event T)) (pos : CursorPosition) (e : Event T)
    (hres : ∀ x ∈ res, x.position = pos) :
    e ∈ (handleGaps fill gap pos res).1 → e.position = pos := by
  rw [handleGaps]
  intro he
  split at he
  · rcases List.mem_map.mp he with ⟨a, _, rfl⟩
    rfl
  · exact hres e he

theorem sortNow_cursor {T : Type} (s : EventStream T) :
    s.sortNow.cursor = s.cursor := by
  rw [EventStream.sortNow]
  split <;> rfl

theorem next_mem_position {T : Type} (s : EventStream T)
    (r : List (Event T)) (e : Event T) (hsome : (s.next).1 = some r)
    (he : e ∈ r) : e.position = s.cursor.position := by
  rw [EventStream.next] at hsome
  by_cases hstop : s.sortNow.events.isEmpty = true ∨
      (s.sortNow.events.length ≤ s.sortNow.increment ∧
        ¬ s.sortNow.is_loop = true)
  · rw [if_pos hstop] at hsome
    simp at hsome
  · rw [if_neg hstop] at hsome
    rcases hc : collectAt (s.sortNow.events.drop s.sortNow.increment)
        s.sortNow.cursor.position s.sortNow.increment with ⟨res, inc'⟩
    rw [hc] at hsome
    dsimp only at hsome
    rcases hg : handleGaps s.sortNow.fill_gaps s.sortNow.gap_value
        s.sortNow.cursor.position res with ⟨res2, gap'⟩
    rw [hg] at hsome
    dsimp only at hsome
    have hr : r = res2 := by
      simpa using hsome.symm
    subst hr
    rw [← sortNow_cursor s]
    refine handleGaps_mem_position s.sortNow.fill_gaps
      s.sortNow.gap_value res s.sortNow.cursor.position e ?_
      (by rw [hg]; exact he)
    intro x hx
    exact collectAt_mem_position s.sortNow.cursor.position _
      s.sortNow.increment x (by rw [hc]; exact hx)

/-- **C7**: invariants of `EventStream::next` — (i) every emitted event's
position equals the stream's cursor position at the call (gap-filled
events are rewritten to it); (ii) across two consecutive calls within a
loop cycle (the cursor advanced by one tick, i.e. no loop reset), the
positions of the second call strictly exceed those of the first, so
positions are non-decreasing; (iii) the lazy re-sort before a read is
stable on position: events with equal position keep insertion order;
(iv) after sorting, equal-position events sit together; (v) on a sorted
pending region the scan emits exactly the events at the cursor position
as a single group, in list (hence insertion) order. -/
theorem event_stream_invariants_c7 (T : Type) :
    (∀ (s : EventStream T) (r : List (Event T)) (e : Event T),
      (s.next).1 = some r → e ∈ r → e.position = s.cursor.position) ∧
    (∀ (s : EventStream T) (r r' : List (Event T)) (e e' : Event T),
      (s.next).1 = some r →
      (s.next).2.cursor.position = s.cursor.position.increment →
      ((s.next).2.next).1 = some r' →
      e ∈ r → e' ∈ r' → e.position.posLt e'.position) ∧
    (∀ (l : List (Event T)) (p : CursorPosition),
      (sortByPos l).filter (fun x => decide (x.position = p)) =
        l.filter (fun x => decide (x.position = p))) ∧
    (∀ (l : List (Event T)),
      (sortByPos l).Pairwise (fun a b => a.position.posLe b.position)) ∧
    (∀ (l : List (Event T)) (pos : CursorPosition) (inc : Nat),
      l.Pairwise (fun a b => a.position.posLe b.position) →
      (collectAt l pos inc).1 =
        l.filter (fun x => decide (x.position = pos))) := by
  refine ⟨next_mem_position, ?_, fun l p => sortByPos_filter_stable p l,
    sortByPos_pairwise, fun l pos inc h => collectAt_fst_sorted pos l inc h⟩
  intro s r r' e e' hsome hcur hsome' he he'
  have h1 := next_mem_position s r e hsome he
  have h2 := next_mem_position (s.next).2 r' e' hsome' he'
  rw [h1, h2, hcur]
  exact increment_posLt _

/-- Witness for C7 at a one-event stream over `ℕ`: the event emitted by
the first call sits at the stream's cursor position `(0, 0)`. -/
theorem event_stream_invariants_c7_witness :
    (⟨5, ⟨0, 0, 2⟩, EventState.on⟩ : Event Nat).position =
      (EventStream.new [⟨5, ⟨0, 0, 2⟩, EventState.on⟩] 2).cursor.position :=
  (event_stream_invariants_c7 Nat).1
    (EventStream.new [⟨5, ⟨0, 0, 2⟩, EventState.on⟩] 2)
    [⟨5, ⟨0, 0, 2⟩, EventState.on⟩] ⟨5, ⟨0, 0, 2⟩, EventState.on⟩
    rfl (by simp)


/-! ## C2: tie prolongation per voice -/

/-- Voice `v`'s column across a list of groups (each group given by its
value list). -/
def colOf (vss : List (List IntermediateEvent)) (v : Nat) :
    List IntermediateEvent :=
  vss.map fun row => row.getD v IntermediateEvent.dummy

/-- The total duration of the leading ties of a column: how much the
ties immediately following an event prolong it. -/
def leadTieSum (col : List IntermediateEvent) : ℚ :=
  ((col.takeWhile IntermediateEvent.isTie).map (·.duration)).sum

/-- Add `f v` to each event's duration, `v` counting voices from the
given start. -/
def mergeRow (f : Nat → ℚ) : Nat → List IntermediateEvent →
    List IntermediateEvent
  | _, [] => []
  | v, e :: row =>
    { e with duration := e.duration + f v } :: mergeRow f (v + 1) row

/-- The non-tie events of a row, each prolonged by `f` at its voice;
ties contribute nothing. -/
def pushedMerge (f : Nat → ℚ) : Nat → List IntermediateEvent →
    List IntermediateEvent
  | _, [] => []
  | v, e :: row =>
    if e.isTie then pushedMerge f (v + 1) row
    else { e with duration := e.duration + f v } :: pushedMerge f (v + 1) row

/-- All events pushed by the groups after the first, in group-then-voice
order, each prolonged by the leading ties of its own voice column in
the remaining groups. -/
def pushedRows : List (List IntermediateEvent) → List IntermediateEvent
  | [] => []
  | row :: later =>
    pushedMerge (fun v => leadTieSum (colOf later v)) 0 row ++
      pushedRows later

/-- The specified outcome of tie interpretation on uniform-width
groups: the first row survives whole, each voice prolonged by its
column's leading ties; every later non-tie event appears once, likewise
prolonged; ties produce no events. -/
def tieSpecFn : List (List IntermediateEvent) → List IntermediateEvent
  | [] => []
  | row :: later =>
    mergeRow (fun v => leadTieSum (colOf later v)) 0 row ++ pushedRows later

/-- `interpretCurrentAux` specialised to full width, on pointers zipped
with their aligned values. -/
def curFull : List (Nat × IntermediateEvent) → List IntermediateEvent →
    List Nat → List IntermediateEvent × List Nat
  | [], res, np => (res, np)
  | (p, e) :: rest, res, np =>
    if e.isTie then curFull rest (addDur res p e.duration) (np ++ [p])
    else curFull rest (res ++ [e]) (np ++ [res.length])

/-- The duration additions a zipped pass performs on the existing
result region. -/
def tieAdds (Z : List (Nat × IntermediateEvent))
    (res : List IntermediateEvent) : List IntermediateEvent :=
  Z.foldl (fun r pe => if pe.2.isTie then addDur r pe.1 pe.2.duration else r)
    res

/-- The events a zipped pass appends, unmodified. -/
def pushedPlain (Z : List (Nat × IntermediateEvent)) :
    List IntermediateEvent :=
  Z.filterMap fun pe => if pe.2.isTie then none else some pe.2

/-- The pointers a zipped pass carries forward: a tie keeps its old
pointer, a non-tie points at its pushed position. -/
def newPtrs : List (Nat × IntermediateEvent) → Nat → List Nat
  | [], _ => []
  | (p, e) :: rest, base =>
    if e.isTie then p :: newPtrs rest base
    else base :: newPtrs rest (base + 1)

/-- Walk a pointer list, adding `f v` to the event each pointer
designates (`v` counting voices from the given start). -/
def applyLeadF (f : Nat → ℚ) : List IntermediateEvent → Nat → List Nat →
    List IntermediateEvent
  | res, _, [] => res
  | res, v, p :: ps => applyLeadF f (addDur res p (f v)) (v + 1) ps

theorem addDur_length (l : List IntermediateEvent) :
    ∀ (i : Nat) (d : ℚ), (addDur l i d).length = l.length := by
  induction l with
  | nil => intro i d; rfl
  | cons e rest ih =>
    intro i d
    cases i with
    | zero => rfl
    | succ j => simp [addDur, ih]

theorem addDur_zero (l : List IntermediateEvent) :
    ∀ (i : Nat), addDur l i 0 = l := by
  induction l with
  | nil => intro i; rfl
  | cons e rest ih =>
    intro i
    cases i with
    | zero => simp [addDur]
    | succ j => simp [addDur, ih]

theorem addDur_append_left (l l2 : List IntermediateEvent) :
    ∀ (i : Nat) (d : ℚ), i < l.length →
      addDur (l ++ l2) i d = addDur l i d ++ l2 := by
  induction l with
  | nil => intro i d h; simp at h
  | cons e rest ih =>
    intro i d h
    cases i with
    | zero => simp [addDur]
    | succ j =>
      simp only [List.cons_append, addDur, List.append_eq]
      rw [ih j d (by simpa using h)]

theorem addDur_append_right (l l2 : List IntermediateEvent) :
    ∀ (j : Nat) (d : ℚ),
      addDur (l ++ l2) (l.length + j) d = l ++ addDur l2 j d := by
  induction l with
  | nil => intro j d; simp
  | cons e rest ih =>
    intro j d
    simp only [List.cons_append, List.length_cons]
    rw [show rest.length + 1 + j = (rest.length + j) + 1 from by omega]
    simp only [addDur, List.append_eq]
    rw [ih j d]

theorem addDur_comm (l : List IntermediateEvent) :
    ∀ (i j : Nat) (d d' : ℚ),
      addDur (addDur l i d) j d' = addDur (addDur l j d') i d := by
  induction l with
  | nil => intro i j d d'; rfl
  | cons e rest ih =>
    intro i j d d'
    cases i with
    | zero =>
      cases j with
      | zero => simp [addDur]; ring
      | succ j' => simp [addDur]
    | succ i' =>
      cases j with
      | zero => simp [addDur]
      | succ j' => simp [addDur, ih]

theorem addDur_same (l : List IntermediateEvent) :
    ∀ (i : Nat) (d d' : ℚ),
      addDur (addDur l i d) i d' = addDur l i (d + d') := by
  induction l with
  | nil => intro i d d'; rfl
  | cons e rest ih =>
    intro i d d'
    cases i with
    | zero => simp [addDur]; ring
    | succ j => simp [addDur, ih]

theorem tieAdds_nil (res : List IntermediateEvent) :
    tieAdds [] res = res := rfl

theorem tieAdds_cons (p : Nat) (e : IntermediateEvent)
    (Z : List (Nat × IntermediateEvent)) (res : List IntermediateEvent) :
    tieAdds ((p, e) :: Z) res =
      tieAdds Z (if e.isTie then addDur res p e.duration else res) := by
  rw [tieAdds, List.foldl_cons]
  by_cases h : e.isTie
  · rw [if_pos h]
    rfl
  · rw [if_neg h]
    rfl

theorem tieAdds_addDur (Z : List (Nat × IntermediateEvent)) :
    ∀ (res : List IntermediateEvent) (i : Nat) (d : ℚ),
      tieAdds Z (addDur res i d) = addDur (tieAdds Z res) i d := by
  induction Z with
  | nil => intro res i d; rfl
  | cons pe Z ih =>
    intro res i d
    rcases pe with ⟨p, e⟩
    rw [tieAdds_cons, tieAdds_cons]
    by_cases h : e.isTie
    · rw [if_pos h, if_pos h, addDur_comm, ih]
    · rw [if_neg h, if_neg h, ih]

theorem tieAdds_length (Z : List (Nat × IntermediateEvent)) :
    ∀ (res : List IntermediateEvent),
      (tieAdds Z res).length = res.length := by
  induction Z with
  | nil => intro res; rfl
  | cons pe Z ih =>
    intro res
    rcases pe with ⟨p, e⟩
    rw [tieAdds_cons]
    by_cases h : e.isTie
    · rw [if_pos h, ih, addDur_length]
    · rw [if_neg h, ih]

theorem tieAdds_append (Z : List (Nat × IntermediateEvent)) :
    ∀ (res ext : List IntermediateEvent),
      (∀ pe ∈ Z, pe.1 < res.length) →
      tieAdds Z (res ++ ext) = tieAdds Z res ++ ext := by
  induction Z with
  | nil => intro res ext _; rfl
  | cons pe Z ih =>
    intro res ext hb
    rcases pe with ⟨p, e⟩
    rw [tieAdds_cons, tieAdds_cons]
    have hp : p < res.length := hb (p, e) (List.mem_cons_self _ _)
    by_cases h : e.isTie
    · rw [if_pos h, if_pos h, addDur_append_left res ext p e.duration hp]
      rw [ih (addDur res p e.duration) ext]
      intro qe hq
      rw [addDur_length]
      exact hb qe (List.mem_cons_of_mem _ hq)
    · rw [if_neg h, if_neg h]
      exact ih res ext fun qe hq => hb qe (List.mem_cons_of_mem _ hq)

theorem newPtrs_length (Z : List (Nat × IntermediateEvent)) :
    ∀ (b : Nat), (newPtrs Z b).length = Z.length := by
  induction Z with
  | nil => intro b; rfl
  | cons pe Z ih =>
    intro b
    rcases pe with ⟨p, e⟩
    rw [newPtrs]
    by_cases h : e.isTie
    · rw [if_pos h]
      simp [ih]
    · rw [if_neg h]
      simp [ih]

theorem newPtrs_bound (Z : List (Nat × IntermediateEvent)) :
    ∀ (b c : Nat), (∀ pe ∈ Z, pe.1 < c) → c ≤ b →
      ∀ q ∈ newPtrs Z b, q < b + (pushedPlain Z).length := by
  induction Z with
  | nil => intro b c _ _ q hq; simp [newPtrs] at hq
  | cons pe Z ih =>
    intro b c hc hcb q hq
    rcases pe with ⟨p, e⟩
    rw [newPtrs] at hq
    by_cases h : e.isTie
    · rw [if_pos h] at hq
      have hps : pushedPlain ((p, e) :: Z) = pushedPlain Z := by
        rw [pushedPlain, List.filterMap_cons]
        rw [if_pos h]
        rfl
      rw [hps]
      rcases List.mem_cons.mp hq with rfl | hq
      · exact Nat.lt_of_lt_of_le
          (Nat.lt_of_lt_of_le (hc (q, e) (List.mem_cons_self _ _)) hcb)
          (Nat.le_add_right _ _)
      · exact ih b c (fun qe hqe => hc qe (List.mem_cons_of_mem _ hqe)) hcb
          q hq
    · rw [if_neg h] at hq
      have hps : pushedPlain ((p, e) :: Z) = e :: pushedPlain Z := by
        rw [pushedPlain, List.filterMap_cons]
        rw [if_neg h]
        rfl
      rw [hps]
      rcases List.mem_cons.mp hq with rfl | hq
      · simp only [List.length_cons]
        omega
      · have := ih (b + 1) c
          (fun qe hqe => hc qe (List.mem_cons_of_mem _ hqe)) (by omega) q hq
        simp only [List.length_cons]
        omega

theorem pushedPlain_cons_tie (p : Nat) (e : IntermediateEvent)
    (Z : List (Nat × IntermediateEvent)) (h : e.isTie = true) :
    pushedPlain ((p, e) :: Z) = pushedPlain Z := by
  rw [pushedPlain, pushedPlain, List.filterMap_cons, if_pos h]

theorem pushedPlain_cons_push (p : Nat) (e : IntermediateEvent)
    (Z : List (Nat × IntermediateEvent)) (h : ¬ e.isTie = true) :
    pushedPlain ((p, e) :: Z) = e :: pushedPlain Z := by
  rw [pushedPlain, pushedPlain, List.filterMap_cons, if_neg h]

theorem newPtrs_cons_tie (p : Nat) (e : IntermediateEvent)
    (Z : List (Nat × IntermediateEvent)) (b : Nat) (h : e.isTie = true) :
    newPtrs ((p, e) :: Z) b = p :: newPtrs Z b := by
  rw [newPtrs, if_pos h]

theorem newPtrs_cons_push (p : Nat) (e : IntermediateEvent)
    (Z : List (Nat × IntermediateEvent)) (b : Nat) (h : ¬ e.isTie = true) :
    newPtrs ((p, e) :: Z) b = b :: newPtrs Z (b + 1) := by
  rw [newPtrs, if_neg h]

theorem curFull_closed (Z : List (Nat × IntermediateEvent)) :
    ∀ (res : List IntermediateEvent) (np : List Nat),
      (∀ pe ∈ Z, pe.1 < res.length) →
      curFull Z res np =
        (tieAdds Z res ++ pushedPlain Z, np ++ newPtrs Z res.length) := by
  induction Z with
  | nil =>
    intro res np _
    simp [curFull, tieAdds_nil, pushedPlain, newPtrs]
  | cons pe Z ih =>
    intro res np hb
    rcases pe with ⟨p, e⟩
    have hp : p < res.length := hb (p, e) (List.mem_cons_self _ _)
    have hb' : ∀ qe ∈ Z, qe.1 < res.length :=
      fun qe hq => hb qe (List.mem_cons_of_mem _ hq)
    rw [curFull]
    by_cases h : e.isTie
    · rw [if_pos h]
      rw [ih (addDur res p e.duration) (np ++ [p])
        (by intro qe hq; rw [addDur_length]; exact hb' qe hq)]
      rw [tieAdds_cons, if_pos h]
      rw [pushedPlain_cons_tie p e Z h, newPtrs_cons_tie p e Z _ h]
      rw [addDur_length]
      simp
    · rw [if_neg h]
      rw [ih (res ++ [e]) (np ++ [res.length])
        (by
          intro qe hq
          rw [List.length_append]
          exact Nat.lt_of_lt_of_le (hb' qe hq) (by simp))]
      rw [tieAdds_cons, if_neg h]
      rw [tieAdds_append Z res [e] hb']
      rw [pushedPlain_cons_push p e Z h, newPtrs_cons_push p e Z _ h]
      simp only [List.length_append, List.length_cons, List.length_nil]
      simp

theorem interpretCurrentAux_eq_curFull (values : List IntermediateEvent) :
    ∀ (oldPrev : List Nat) (n : Nat) (res : List IntermediateEvent)
      (np : List Nat), values.length = n + oldPrev.length →
      interpretCurrentAux values n oldPrev res np =
        curFull (oldPrev.zip (values.drop n)) res np := by
  intro oldPrev
  induction oldPrev with
  | nil =>
    intro n res np _
    simp [interpretCurrentAux, curFull]
  | cons p rest ih =>
    intro n res np hlen
    have hn : n < values.length := by
      simp only [List.length_cons] at hlen
      omega
    have hmod : n % values.length = n := Nat.mod_eq_of_lt hn
    have hgd : values.getD (n % values.length) IntermediateEvent.dummy =
        values[n] := by
      rw [hmod]
      exact List.getD_eq_getElem values IntermediateEvent.dummy hn
    have hdrop : values.drop n = values[n] :: values.drop (n + 1) :=
      List.drop_eq_getElem_cons hn
    rw [interpretCurrentAux, hgd, hdrop]
    rw [List.zip_cons_cons]
    rw [curFull]
    by_cases h : values[n].isTie
    · rw [if_pos h, if_pos h]
      rw [ih (n + 1) (addDur res p values[n].duration) (np ++ [p])
        (by simp only [List.length_cons] at hlen; omega)]
    · rw [if_neg h, if_neg h, if_pos hn]
      rw [ih (n + 1) (res ++ [values[n]]) (np ++ [res.length])
        (by simp only [List.length_cons] at hlen; omega)]

theorem applyLeadF_addDur (f : Nat → ℚ) :
    ∀ (ps : List Nat) (r : List IntermediateEvent) (v i : Nat) (d : ℚ),
      applyLeadF f (addDur r i d) v ps =
        addDur (applyLeadF f r v ps) i d := by
  intro ps
  induction ps with
  | nil => intro r v i d; rfl
  | cons p ps ih =>
    intro r v i d
    rw [applyLeadF, applyLeadF, addDur_comm, ih]

theorem applyLeadF_zero (f : Nat → ℚ) :
    ∀ (ps : List Nat) (r : List IntermediateEvent) (v : Nat),
      (∀ u, f u = 0) → applyLeadF f r v ps = r := by
  intro ps
  induction ps with
  | nil => intro r v _; rfl
  | cons p ps ih =>
    intro r v hf
    rw [applyLeadF, hf, addDur_zero, ih _ _ hf]

theorem curSpec (f : Nat → ℚ) :
    ∀ (Z : List (Nat × IntermediateEvent)) (v₀ : Nat)
      (res mid : List IntermediateEvent) (g : Nat → ℚ),
      (∀ pe ∈ Z, pe.1 < res.length) →
      (∀ j, j < Z.length →
        g (v₀ + j) =
          (if ((Z.getD j (0, IntermediateEvent.dummy)).2).isTie then
            (Z.getD j (0, IntermediateEvent.dummy)).2.duration + f (v₀ + j)
          else 0)) →
      applyLeadF f (tieAdds Z res ++ mid ++ pushedPlain Z) v₀
          (newPtrs Z (res.length + mid.length)) =
        applyLeadF g res v₀ (Z.map Prod.fst) ++ mid ++
          pushedMerge f v₀ (Z.map Prod.snd) := by
  intro Z
  induction Z with
  | nil =>
    intro v₀ res mid g _ _
    simp [tieAdds_nil, pushedPlain, newPtrs, applyLeadF, pushedMerge]
  | cons pe Z ih =>
    intro v₀ res mid g hb hg
    rcases pe with ⟨p, e⟩
    have hp : p < res.length := hb (p, e) (List.mem_cons_self _ _)
    have hb' : ∀ qe ∈ Z, qe.1 < res.length :=
      fun qe hq => hb qe (List.mem_cons_of_mem _ hq)
    have hg0 := hg 0 (by simp)
    rw [List.getD_cons_zero] at hg0
    rw [Nat.add_zero] at hg0
    have hg' : ∀ j, j < Z.length →
        g (v₀ + 1 + j) =
          (if ((Z.getD j (0, IntermediateEvent.dummy)).2).isTie then
            (Z.getD j (0, IntermediateEvent.dummy)).2.duration +
              f (v₀ + 1 + j)
          else 0) := by
      intro j hj
      have := hg (j + 1) (by simp; omega)
      rw [List.getD_cons_succ] at this
      rw [show v₀ + (j + 1) = v₀ + 1 + j from by omega] at this
      exact this
    by_cases h : e.isTie
    · rw [tieAdds_cons, if_pos h, pushedPlain_cons_tie p e Z h,
        newPtrs_cons_tie p e Z _ h]
      rw [applyLeadF]
      rw [tieAdds_addDur]
      rw [addDur_append_left _ (pushedPlain Z) p (f v₀)
        (by rw [List.length_append, addDur_length, tieAdds_length]; omega)]
      rw [addDur_append_left _ mid p (f v₀)
        (by rw [addDur_length, tieAdds_length]; exact hp)]
      rw [addDur_same]
      rw [show e.duration + f v₀ = g v₀ from by rw [hg0, if_pos h]]
      rw [← tieAdds_addDur]
      rw [show res.length + mid.length =
        (addDur res p (g v₀)).length + mid.length from by rw [addDur_length]]
      rw [ih (v₀ + 1) (addDur res p (g v₀)) mid g
        (by intro qe hq; rw [addDur_length]; exact hb' qe hq) hg']
      rw [List.map_cons, List.map_cons]
      rw [show applyLeadF g res v₀ (p :: Z.map Prod.fst) =
        applyLeadF g (addDur res p (g v₀)) (v₀ + 1) (Z.map Prod.fst)
        from rfl]
      rw [show pushedMerge f v₀ (e :: Z.map Prod.snd) =
        pushedMerge f (v₀ + 1) (Z.map Prod.snd) from by
          rw [pushedMerge, if_pos h]]
    · rw [tieAdds_cons, if_neg h, pushedPlain_cons_push p e Z h,
        newPtrs_cons_push p e Z _ h]
      rw [applyLeadF]
      rw [show res.length + mid.length =
        (tieAdds Z res ++ mid).length + 0 from by
          rw [List.length_append, tieAdds_length]
          omega]
      rw [addDur_append_right]
      rw [show addDur (e :: pushedPlain Z) 0 (f v₀) =
        { e with duration := e.duration + f v₀ } :: pushedPlain Z
        from rfl]
      rw [show tieAdds Z res ++ mid ++
          ({ e with duration := e.duration + f v₀ } :: pushedPlain Z) =
        tieAdds Z res ++ (mid ++ [{ e with duration := e.duration + f v₀ }])
          ++ pushedPlain Z from by simp]
      rw [show (tieAdds Z res ++ mid).length + 0 + 1 =
        res.length +
          (mid ++ [{ e with duration := e.duration + f v₀ }]).length
        from by
          rw [List.length_append, tieAdds_length, List.length_append,
            List.length_cons, List.length_nil]
          omega]
      rw [ih (v₀ + 1) res
        (mid ++ [({ e with duration := e.duration + f v₀ } :
          IntermediateEvent)]) g hb' hg']
      rw [List.map_cons, List.map_cons]
      rw [show applyLeadF g res v₀ (p :: Z.map Prod.fst) =
        applyLeadF g (addDur res p (g v₀)) (v₀ + 1) (Z.map Prod.fst)
        from rfl]
      rw [show g v₀ = 0 from by rw [hg0, if_neg h]]
      rw [addDur_zero]
      rw [show pushedMerge f v₀ (e :: Z.map Prod.snd) =
        { e with duration := e.duration + f v₀ } ::
          pushedMerge f (v₀ + 1) (Z.map Prod.snd) from by
          rw [pushedMerge, if_neg h]]
      simp

theorem colOf_nil (v : Nat) : colOf [] v = [] := rfl

theorem colOf_cons (r : List IntermediateEvent)
    (t : List (List IntermediateEvent)) (v : Nat) :
    colOf (r :: t) v = r.getD v IntermediateEvent.dummy :: colOf t v := rfl

theorem leadTieSum_nil : leadTieSum [] = 0 := rfl

theorem leadTieSum_cons (e : IntermediateEvent)
    (col : List IntermediateEvent) :
    leadTieSum (e :: col) =
      if e.isTie then e.duration + leadTieSum col else 0 := by
  rw [leadTieSum, leadTieSum, List.takeWhile_cons]
  by_cases h : e.isTie
  · rw [if_pos h, if_pos h]
    simp
  · rw [if_neg h, if_neg h]
    simp

theorem pushedRows_cons (r : List IntermediateEvent)
    (t : List (List IntermediateEvent)) :
    pushedRows (r :: t) =
      pushedMerge (fun v => leadTieSum (colOf t v)) 0 r ++ pushedRows t :=
  rfl

theorem zip_getD_snd (prev : List Nat) (row : List IntermediateEvent)
    (j : Nat) (hlen : row.length = prev.length) (hj : j < prev.length) :
    ((prev.zip row).getD j (0, IntermediateEvent.dummy)).2 =
      row.getD j IntermediateEvent.dummy := by
  have hz : j < (prev.zip row).length := by
    rw [List.length_zip]
    omega
  rw [List.getD_eq_getElem _ _ hz, List.getD_eq_getElem _ _ (by omega)]
  rw [List.getElem_zip]

theorem foldTieStep_spec :
    ∀ (rest : List ArrangedIntermediates) (res : List IntermediateEvent)
      (prev : List Nat),
      (∀ g ∈ rest, g.values.length = prev.length) →
      (∀ i ∈ prev, i < res.length) →
      ∃ pf, rest.foldlM tieStep (res, prev) = Except.ok
          (applyLeadF
            (fun v => leadTieSum (colOf (rest.map (fun x => x.values)) v))
            res 0 prev ++ pushedRows (rest.map (fun x => x.values)), pf) := by
  intro rest
  induction rest with
  | nil =>
    intro res prev _ _
    refine ⟨prev, ?_⟩
    rw [List.foldlM]
    rw [List.map_nil, pushedRows, List.append_nil]
    rw [applyLeadF_zero _ _ _ _ (fun u => by rw [colOf_nil, leadTieSum_nil])]
    rfl
  | cons g rest ih =>
    intro res prev hw hb
    have hwg : g.values.length = prev.length :=
      hw g (List.mem_cons_self _ _)
    have hZlen : (prev.zip g.values).length = prev.length := by
      rw [List.length_zip]
      omega
    have hzb : ∀ pe ∈ prev.zip g.values, pe.1 < res.length :=
      fun pe hpe => hb pe.1 (List.of_mem_zip hpe).1
    rw [List.foldlM_cons]
    have hstep : tieStep (res, prev) g = Except.ok
        (tieAdds (prev.zip g.values) res ++
            pushedPlain (prev.zip g.values),
          newPtrs (prev.zip g.values) res.length) := by
      rw [tieStep]
      rw [show (res, prev).2 = prev from rfl,
        show (res, prev).1 = res from rfl]
      rw [show min prev.length g.values.length = prev.length from by omega]
      rw [show g.values.take prev.length = g.values from by
        rw [← hwg]; exact List.take_length _]
      rw [show g.values.drop prev.length = [] from by
        rw [← hwg]; exact List.drop_length _]
      rw [interpretCurrentAux_eq_curFull g.values prev 0 res [] (by omega)]
      rw [List.drop_zero]
      rw [curFull_closed (prev.zip g.values) res [] hzb]
      rw [List.nil_append]
      dsimp only
      rw [interpretNext]
    rw [hstep]
    simp only [Bind.bind, Except.bind]
    have hPlen : (newPtrs (prev.zip g.values) res.length).length =
        prev.length := by
      rw [newPtrs_length, hZlen]
    have hw' : ∀ g2 ∈ rest, g2.values.length =
        (newPtrs (prev.zip g.values) res.length).length := by
      intro g2 hg2
      rw [hPlen]
      exact hw g2 (List.mem_cons_of_mem _ hg2)
    have hb' : ∀ i ∈ newPtrs (prev.zip g.values) res.length,
        i < (tieAdds (prev.zip g.values) res ++
          pushedPlain (prev.zip g.values)).length := by
      intro i hi
      rw [List.length_append, tieAdds_length]
      exact newPtrs_bound _ res.length res.length hzb (le_refl _) i hi
    obtain ⟨pf, hpf⟩ := ih _ _ hw' hb'
    refine ⟨pf, ?_⟩
    rw [hpf]
    simp only [List.map_cons]
    have hidx : ∀ j, j < (prev.zip g.values).length →
        (fun v => leadTieSum
          (colOf (g.values :: rest.map (fun x => x.values)) v)) (0 + j) =
          (if (((prev.zip g.values).getD j
              (0, IntermediateEvent.dummy)).2).isTie then
            ((prev.zip g.values).getD j
              (0, IntermediateEvent.dummy)).2.duration +
              (fun v => leadTieSum
                (colOf (rest.map (fun x => x.values)) v)) (0 + j)
          else 0) := by
      intro j hj
      rw [hZlen] at hj
      simp only [Nat.zero_add]
      rw [zip_getD_snd prev g.values j hwg hj]
      rw [colOf_cons, leadTieSum_cons]
    have hcs := curSpec
      (fun v => leadTieSum (colOf (rest.map (fun x => x.values)) v))
      (prev.zip g.values) 0 res []
      (fun v => leadTieSum
        (colOf (g.values :: rest.map (fun x => x.values)) v))
      hzb hidx
    simp only [List.append_nil, List.length_nil, Nat.add_zero] at hcs
    rw [List.map_fst_zip prev g.values (by omega),
      List.map_snd_zip prev g.values (by omega)] at hcs
    rw [pushedRows_cons]
    rw [hcs]
    rw [List.append_assoc]

theorem applyLeadF_range (f : Nat → ℚ) :
    ∀ (post pre : List IntermediateEvent) (v₀ : Nat),
      applyLeadF f (pre ++ post) v₀ (List.range' pre.length post.length) =
        pre ++ mergeRow f v₀ post := by
  intro post
  induction post with
  | nil =>
    intro pre v₀
    rw [List.length_nil, List.range'_zero]
    rw [applyLeadF, mergeRow]
  | cons e post ih =>
    intro pre v₀
    rw [List.length_cons, List.range'_succ]
    rw [applyLeadF]
    rw [show addDur (pre ++ e :: post) pre.length (f v₀) =
        pre ++ ({ e with duration := e.duration + f v₀ } :: post) from by
      have h := addDur_append_right pre (e :: post) 0 (f v₀)
      rw [Nat.add_zero] at h
      rw [h, addDur]]
    rw [show pre ++ ({ e with duration := e.duration + f v₀ } :: post) =
        (pre ++ [{ e with duration := e.duration + f v₀ }]) ++ post from by
      rw [List.append_assoc, List.singleton_append]]
    rw [show pre.length + 1 =
        (pre ++ [{ e with duration := e.duration + f v₀ }]).length from by
      simp]
    rw [ih]
    rw [mergeRow, List.append_assoc, List.singleton_append]

theorem tieSpecFn_cons (r : List IntermediateEvent)
    (t : List (List IntermediateEvent)) :
    tieSpecFn (r :: t) =
      mergeRow (fun v => leadTieSum (colOf t v)) 0 r ++ pushedRows t := rfl

theorem isTie_set_duration (e : IntermediateEvent) (d : ℚ) :
    IntermediateEvent.isTie { e with duration := d } =
      IntermediateEvent.isTie e := rfl

theorem mem_mergeRow (f : Nat → ℚ) :
    ∀ (row : List IntermediateEvent) (v : Nat)
      (x : IntermediateEvent), x ∈ mergeRow f v row →
      ∃ e ∈ row, x.isTie = e.isTie := by
  intro row
  induction row with
  | nil => intro v x hx; exact absurd hx (by rw [mergeRow]; simp)
  | cons e row ih =>
    intro v x hx
    rw [mergeRow] at hx
    rcases List.mem_cons.mp hx with rfl | hx
    · exact ⟨e, List.mem_cons_self _ _, isTie_set_duration e _⟩
    · obtain ⟨e2, he2, hq⟩ := ih (v + 1) x hx
      exact ⟨e2, List.mem_cons_of_mem _ he2, hq⟩

theorem mem_pushedMerge_not_tie (f : Nat → ℚ) :
    ∀ (row : List IntermediateEvent) (v : Nat)
      (x : IntermediateEvent), x ∈ pushedMerge f v row →
      x.isTie = false := by
  intro row
  induction row with
  | nil => intro v x hx; exact absurd hx (by rw [pushedMerge]; simp)
  | cons e row ih =>
    intro v x hx
    rw [pushedMerge] at hx
    by_cases h : e.isTie
    · rw [if_pos h] at hx
      exact ih (v + 1) x hx
    · rw [if_neg h] at hx
      rcases List.mem_cons.mp hx with rfl | hx
      · rw [isTie_set_duration]
        exact Bool.eq_false_iff.mpr h
      · exact ih (v + 1) x hx

theorem mem_pushedRows_not_tie :
    ∀ (vss : List (List IntermediateEvent)) (x : IntermediateEvent),
      x ∈ pushedRows vss → x.isTie = false := by
  intro vss
  induction vss with
  | nil => intro x hx; exact absurd hx (by rw [pushedRows]; simp)
  | cons row later ih =>
    intro x hx
    rw [pushedRows_cons] at hx
    rcases List.mem_append.mp hx with hx | hx
    · exact mem_pushedMerge_not_tie _ row 0 x hx
    · exact ih x hx

/-- Two arranged groups of different voice counts: two non-ties
(durations 1 and 2), then a single tie (duration 4). -/
def c2CexGroups : List ArrangedIntermediates :=
  [⟨[⟨Audible.degree ⟨0, 0⟩, none, 1, 0, 0⟩,
     ⟨Audible.degree ⟨2, 0⟩, none, 2, 0, 0⟩], 1, 0, 0⟩,
   ⟨[⟨Audible.tie, none, 4, 0, 1⟩], 1, 1, 0⟩]

/-- **C2, counterexample**: the claim's alignment rule ("by index
modulo the previous group's voice count") fails on groups of unequal
voice counts.  In `c2CexGroups` the non-tie at voice 1 of the first
group (duration 2) is followed by **zero** tie events aligned to voice
1 — the only index of the second group is 0, and 0 mod 2 = 0 — so the
claim predicts a result event of duration 2 + 0 for that voice.  The
source instead walks each carried pointer over
`values[n % values.len()]`, wrapping the walk index onto the *next*
group's single value, so the lone tie prolongs *both* voices: the
voice-1 result event has duration 2 + 4 = 6 ≠ 2. -/
theorem tie_modulo_alignment_c2_cex :
    ((c2CexGroups.getD 0 default).values.getD 1
        IntermediateEvent.dummy).isTie = false ∧
    (∀ j, j < (c2CexGroups.getD 1 default).values.length →
      ¬ j % (c2CexGroups.getD 0 default).values.length = 1) ∧
    tieInterpret c2CexGroups = Except.ok
      [⟨Audible.degree ⟨0, 0⟩, none, 5, 0, 0⟩,
       ⟨Audible.degree ⟨2, 0⟩, none, 6, 0, 0⟩] ∧
    (6 : ℚ) ≠ 2 + 0 := by
  refine ⟨rfl, by decide, ?_, by norm_num⟩
  norm_num [tieInterpret, tieStep, interpretCurrentAux, interpretNext,
    addDur, IntermediateEvent.isTie, IntermediateEvent.dummy,
    List.foldlM, Bind.bind, Except.bind, Except.map, pure, Except.pure,
    c2CexGroups]

/-- **C2, amended**: each carried voice pointer reads the next group's
values at walk index `n % values.len()`, so a tie prolongs every voice
whose walk index wraps onto it — alignment is by walk index modulo the
*next* group's value count, not by voice index modulo the previous
group's voice count.  When the arranged groups all carry one voice
count (so the wrap is the identity and the claimed alignment is
exact) and the first group is tie-free (the non-`LonelyTie` case of
C4), the tie interpreter succeeds and returns exactly the
spec-described events — every non-tie event at voice `v` of a group
appears once, its duration prolonged by the sum of the durations of the
leading ties of the voice-`v` column of the subsequent groups, each
voice carried independently through its own previous-index pointer; the
tie events themselves produce no result event. -/
theorem tie_prolongation_c2 (g0 : ArrangedIntermediates)
    (rest : List ArrangedIntermediates)
    (hw : ∀ g ∈ rest, g.values.length = g0.values.length)
    (h0 : ∀ e ∈ g0.values, e.isTie = false) :
    tieInterpret (g0 :: rest) =
      Except.ok (tieSpecFn (g0.values :: rest.map (fun x => x.values))) ∧
    ∀ x ∈ tieSpecFn (g0.values :: rest.map (fun x => x.values)),
      x.isTie = false := by
  constructor
  · rw [tieInterpret]
    rw [if_neg (by
      rw [List.any_eq_true]
      rintro ⟨e, he, ht⟩
      rw [h0 e he] at ht
      exact Bool.false_ne_true ht)]
    obtain ⟨pf, hpf⟩ := foldTieStep_spec rest g0.values
      (List.range g0.values.length)
      (by intro g hg; rw [List.length_range]; exact hw g hg)
      (by intro i hi; exact List.mem_range.mp hi)
    rw [hpf]
    simp only [Except.map]
    have hr := applyLeadF_range
      (fun v => leadTieSum (colOf (rest.map (fun x => x.values)) v))
      g0.values [] 0
    rw [List.length_nil] at hr
    simp only [List.nil_append] at hr
    rw [List.range_eq_range']
    rw [hr]
    rw [tieSpecFn_cons]
  · intro x hx
    rw [tieSpecFn_cons] at hx
    rcases List.mem_append.mp hx with hx | hx
    · obtain ⟨e, he, hq⟩ := mem_mergeRow _ g0.values 0 x hx
      rw [hq]
      exact h0 e he
    · exact mem_pushedRows_not_tie _ x hx

/-- A concrete three-group, two-voice instance: voice 0 is prolonged by
ties in both later groups, voice 1 only by the tie in the last group. -/
def c2wG0 : ArrangedIntermediates :=
  ⟨[⟨Audible.pause, none, 1/2, 0, 0⟩, ⟨Audible.pause, none, 1/2, 1/2, 0⟩],
    1, 0, 0⟩

def c2wRest : List ArrangedIntermediates :=
  [⟨[⟨Audible.tie, none, 1/3, 0, 1⟩, ⟨Audible.pause, none, 1/4, 1/3, 1⟩],
      1, 1, 0⟩,
   ⟨[⟨Audible.tie, none, 1/5, 0, 2⟩, ⟨Audible.tie, none, 1/6, 1/5, 2⟩],
      1, 2, 0⟩]

theorem tie_prolongation_c2_witness :
    ((∀ g ∈ c2wRest, g.values.length = c2wG0.values.length) ∧
      (∀ e ∈ c2wG0.values, e.isTie = false)) ∧
    (tieInterpret (c2wG0 :: c2wRest) =
        Except.ok
          (tieSpecFn (c2wG0.values :: c2wRest.map (fun x => x.values))) ∧
      ∀ x ∈ tieSpecFn (c2wG0.values :: c2wRest.map (fun x => x.values)),
        x.isTie = false) :=
  ⟨⟨by decide, by decide⟩,
    tie_prolongation_c2 c2wG0 c2wRest (by decide) (by decide)⟩
end Colly
